import Mathlib

/-!
Verification of the PII redaction engine in backend/app/redaction.py.

Texts are modelled as lists of characters. Python slices, strip, substring
test and regular-expression substitution with a literal (escaped) pattern are
modelled by the executable functions below. Confidence scores are modelled as
rationals; the code only compares and maximizes them. The external statistical
detector and the external tokenizer are parameters: the detector is a function
from a chunk text to labeled units, the tokenizer is the offset-mapping list it
returns for the full text. The replacement string of the re.sub call of
restore_text is escape-processed as re's template parser does, with the
escaped token as the pattern; the exceptions re.sub raises are modelled by an
error constructor without their message text.
-/

namespace Redactor

/-- Python slice text[a:b] for nonnegative bounds (clamping semantics). -/
def pySlice (t : List Char) (a b : Nat) : List Char :=
  (t.drop a).take (b - a)

/-- The whitespace characters removed by Python str.strip. -/
def pyWs (c : Char) : Bool :=
  c = ' ' || c = '\t' || c = '\n' || c = '\x0d' || c = '\x0b' || c = '\x0c'

/-- Python str.strip: remove leading and trailing whitespace. -/
def pyStrip (l : List Char) : List Char :=
  ((l.dropWhile pyWs).reverse.dropWhile pyWs).reverse

/-- Whether t occurs at the head of s. -/
def leadsWith : List Char → List Char → Bool
  | [], _ => true
  | _ :: _, [] => false
  | a :: t, b :: s => a = b && leadsWith t s

/-- Python substring test (t in s). -/
def isSubstr (t : List Char) : List Char → Bool
  | [] => leadsWith t []
  | c :: s => leadsWith t (c :: s) || isSubstr t s

/-- Number of positions of s at which t occurs (counts every start position). -/
def occCount (t : List Char) : List Char → Nat
  | [] => if leadsWith t [] then 1 else 0
  | c :: s => (if leadsWith t (c :: s) then 1 else 0) + occCount t s

/-- Python re.sub of the empty pattern: the replacement is inserted at every
position, including both ends. -/
def pyEmptySub (v : List Char) : List Char → List Char
  | [] => v
  | c :: s => v ++ c :: pyEmptySub v s

/-- Fueled left-to-right non-overlapping replacement of a nonempty literal
pattern; a fuel of the length of the text suffices. -/
def replaceCore (t v : List Char) : Nat → List Char → List Char
  | _, [] => []
  | 0, s => s
  | f + 1, c :: s =>
    if leadsWith t (c :: s) then v ++ replaceCore t v f (s.drop (t.length - 1))
    else c :: replaceCore t v f s

/-- Python re.sub with re.escape-d pattern t: replace every literal
occurrence of t, scanning left to right without overlap. -/
def replaceAll (t v s : List Char) : List Char :=
  if t = [] then pyEmptySub v s else replaceCore t v s.length s

/-- Stable insertion used to model Python stable sorting. -/
def insertLe (le : α → α → Bool) (a : α) : List α → List α
  | [] => [a]
  | b :: bs => if le a b then a :: b :: bs else b :: insertLe le a bs

/-- Stable sort; models Python list.sort and sorted, which are stable. -/
def pySort (le : α → α → Bool) (l : List α) : List α :=
  l.foldr (insertLe le) []

/-- Decimal digit character. -/
def digCh : Nat → Char
  | 0 => '0' | 1 => '1' | 2 => '2' | 3 => '3' | 4 => '4'
  | 5 => '5' | 6 => '6' | 7 => '7' | 8 => '8' | 9 => '9'
  | _ + 10 => '*'

/-- Fueled decimal rendering accumulator. -/
def natCharsCore : Nat → Nat → List Char → List Char
  | 0, _, acc => acc
  | f + 1, n, acc =>
    if n < 10 then digCh n :: acc
    else natCharsCore f (n / 10) (digCh (n % 10) :: acc)

/-- Decimal rendering of a natural number, as Python str of an int. -/
def natChars (n : Nat) : List Char :=
  natCharsCore (n + 1) n []

/-- A detected PII entity: the value, type, half-open absolute character span,
confidence score and, once assigned, the redaction token. Field end of the
Python dict is named stop because end is a Lean keyword. -/
structure Entity where
  value : List Char
  type : List Char
  start : Nat
  stop : Nat
  score : ℚ
  token : List Char := []
deriving DecidableEq, Repr

/-- A token mapping entry of the API response, built by redact_text. -/
structure TokenMapping where
  token : List Char
  value : List Char
  type : List Char
  start : Nat
  stop : Nat
deriving DecidableEq, Repr

/-- One labeled unit produced by the external statistical detector for a chunk:
a chunk-relative half-open character span, the predicted label (none encodes
the O label), and the softmax confidence of the prediction. -/
structure LabelUnit where
  ustart : Nat
  ustop : Nat
  lab : Option (List Char)
  uscore : ℚ
deriving DecidableEq, Repr

/-- The request-scoped token counter: a dict from display category to count. -/
abbrev Ctr := List (List Char × Nat)

/-- dict.get with default 0. -/
def ctrGet (ctr : Ctr) (k : List Char) : Nat :=
  match ctr.find? (fun p => p.1 = k) with
  | some p => p.2
  | none => 0

/-- dict assignment ctr[k] = n. -/
def ctrSet (ctr : Ctr) (k : List Char) (n : Nat) : Ctr :=
  match ctr with
  | [] => [(k, n)]
  | p :: ps => if p.1 = k then (k, n) :: ps else p :: ctrSet ps k n

/-- The static raw-category to display-name table (shared/type_mappings.json);
dict.get falls back to the raw category itself. -/
abbrev TypeMap := List (List Char × List Char)

/-- dict.get on the display table with the raw category as default. -/
def typeMapGet (m : TypeMap) (k : List Char) : List Char :=
  match m.find? (fun p => p.1 = k) with
  | some p => p.2
  | none => k

/-- entity_type.replace applied to the B- and I- markers, then str.upper. -/
def cleanType (ty : List Char) : List Char :=
  (replaceAll ['I', '-'] [] (replaceAll ['B', '-'] [] ty)).map Char.toUpper

/-- The display category of a raw entity type. -/
def displayOf (m : TypeMap) (ty : List Char) : List Char :=
  typeMapGet m (cleanType ty)

/-- The literal token text for a display category and a count. -/
def mkTok (disp : List Char) (count : Nat) : List Char :=
  '<' :: 'P' :: 'I' :: 'I' :: '_' :: (disp ++ '_' :: natChars count ++ ['>'])

/-- PIIRedactor._generate_redaction_token: map the raw type to its display
category, bump the per-request counter for that category, and format the
token. Returns the token and the updated counter. -/
def generateRedactionToken (m : TypeMap) (ty : List Char) (ctr : Ctr) :
    List Char × Ctr :=
  let disp := displayOf m ty
  let count := ctrGet ctr disp + 1
  (mkTok disp count, ctrSet ctr disp count)

/-- The final loop of detect_pii: assign a redaction token to every entity in
order, threading the request-scoped counter. -/
def assignTokens (m : TypeMap) (ctr : Ctr) : List Entity → List Entity × Ctr
  | [] => ([], ctr)
  | e :: rest =>
    let tc := generateRedactionToken m e.type ctr
    let rc := assignTokens m tc.2 rest
    ({ e with token := tc.1 } :: rc.1, rc.2)

/-- Close the in-progress entity of the chunk scan: strip its value. -/
def closeEnt (e : Entity) : Entity :=
  { e with value := pyStrip e.value }

/-- Open a new entity from a labeled unit of a chunk. -/
def newEnt (text : List Char) (off : Nat) (u : LabelUnit) (ty : List Char) :
    Entity :=
  { value := pySlice text u.ustart u.ustop
    type := ty
    start := u.ustart + off
    stop := u.ustop + off
    score := u.uscore }

/-- The scanning loop of PIIRedactor._detect_pii_in_chunk over the labeled
units of one chunk. Special tokens (empty spans) are skipped without closing
the current entity; an O label closes it; a same-type unit whose absolute
start is at most one past the current end extends it, preserving the gap text;
anything else closes it and opens a new one. -/
def chunkLoop (text : List Char) (off : Nat) :
    Option Entity → List LabelUnit → List Entity
  | cur, [] =>
    match cur with
    | some c => [closeEnt c]
    | none => []
  | cur, u :: rest =>
    if u.ustart = u.ustop then chunkLoop text off cur rest
    else
      match u.lab with
      | none =>
        match cur with
        | some c => closeEnt c :: chunkLoop text off none rest
        | none => chunkLoop text off none rest
      | some lab =>
        let ty := replaceAll ['I', '-'] [] lab
        let absS := u.ustart + off
        let absE := u.ustop + off
        match cur with
        | some c =>
          if c.type = ty ∧ absS ≤ c.stop + 1 then
            let gap := if c.stop < absS then pySlice text (c.stop - off) u.ustart
                       else []
            chunkLoop text off
              (some { c with stop := absE
                             value := c.value ++ gap ++ pySlice text u.ustart u.ustop })
              rest
          else closeEnt c :: chunkLoop text off (some (newEnt text off u ty)) rest
        | none => chunkLoop text off (some (newEnt text off u ty)) rest

/-- PIIRedactor._detect_pii_in_chunk, with the model predictions for the chunk
given as the list of labeled units. -/
def detectPiiInChunk (units : List LabelUnit) (text : List Char) (off : Nat) :
    List Entity :=
  chunkLoop text off none units

/-- Tokens per chunk of PIIRedactor (self.max_length). -/
def maxLength : Nat := 512

/-- Overlap tokens between consecutive chunks. -/
def chunkOverlap : Nat := 32

/-- The chunking loop of PIIRedactor._split_text_into_chunks over the token
offset mapping, fueled; a fuel of the token count plus one suffices. -/
def chunksCore (offs : List (Nat × Nat)) (text : List Char) :
    Nat → Nat → List (List Char × Nat)
  | 0, _ => []
  | f + 1, i =>
    if i < offs.length then
      let ce := min (i + maxLength) offs.length
      let charStart := (offs.getD i (0, 0)).1
      let charEnd := (offs.getD (ce - 1) (0, 0)).2
      (pySlice text charStart charEnd, charStart) ::
        (if ce < offs.length then chunksCore offs text f (ce - chunkOverlap)
         else [])
    else []

/-- PIIRedactor._split_text_into_chunks, with the tokenizer offset mapping for
the whole text given as a parameter. -/
def splitTextIntoChunks (offs : List (Nat × Nat)) (text : List Char) :
    List (List Char × Nat) :=
  chunksCore offs text (offs.length + 1) 0

/-- The code's overlap test: entity.start < existing.end and
entity.end > existing.start. -/
def ovB (e x : Entity) : Prop :=
  e.start < x.stop ∧ x.start < e.stop

instance (e x : Entity) : Decidable (ovB e x) := by
  unfold ovB; infer_instance

/-- One step of the inline merge loop of PIIRedactor.detect_pii: scan the
accumulated list for the first overlap; same-type overlaps merge into the
covering span re-sliced from the full text with the larger score,
different-type overlaps keep the higher-scored entity; no overlap appends. -/
def dpInsert (text : List Char) (e : Entity) : List Entity → List Entity
  | [] => [e]
  | x :: xs =>
    if ovB e x ∧ e.type = x.type then
      { value := pySlice text (min e.start x.start) (max e.stop x.stop)
        type := e.type
        start := min e.start x.start
        stop := max e.stop x.stop
        score := max e.score x.score } :: xs
    else if ovB e x ∧ e.type ≠ x.type then
      (if x.score < e.score then e else x) :: xs
    else x :: dpInsert text e xs

/-- PIIRedactor.detect_pii: chunk the text, run the detector per chunk, merge
with the inline loop, sort by start, filter by the confidence threshold, and
assign redaction tokens with the request-scoped counter. -/
def detectPii (offs : List (Nat × Nat)) (det : List Char → List LabelUnit)
    (m : TypeMap) (text : List Char) (ctr : Ctr) (threshold : ℚ) :
    List Entity × Ctr :=
  let chunks := splitTextIntoChunks offs text
  let allEntities :=
    chunks.foldl (fun acc p => acc ++ detectPiiInChunk (det p.1) p.1 p.2) []
  let filtered := allEntities.foldl (fun acc e => dpInsert text e acc) []
  let sorted := pySort (fun a b => decide (a.start ≤ b.start)) filtered
  let final := sorted.filter (fun e => decide (threshold ≤ e.score))
  assignTokens m ctr final

/-- The parts list built by the redaction loop of redact_text: text before
each entity, then its token; finally the text after the last entity. -/
def redactParts (text : List Char) (lastEnd : Nat) : List Entity → List (List Char)
  | [] => [text.drop lastEnd]
  | e :: rest => pySlice text lastEnd e.start :: e.token :: redactParts text e.stop rest

/-- The redacted text: the joined parts list. -/
def buildRedacted (text : List Char) (es : List Entity) : List Char :=
  (redactParts text 0 es).flatten

/-- The token-mapping list of redact_text: entities whose stripped value is
nonempty, with the stripped value. -/
def mappingsOf (es : List Entity) : List TokenMapping :=
  (es.filter (fun e => pyStrip e.value ≠ [])).map
    (fun e => { token := e.token, value := pyStrip e.value, type := e.type
                start := e.start, stop := e.stop })

/-- PIIRedactor.redact_text: fresh request-scoped counter, detection, then the
redacted text and the token mappings; no entities returns the text unchanged. -/
def redactText (offs : List (Nat × Nat)) (det : List Char → List LabelUnit)
    (m : TypeMap) (text : List Char) (threshold : ℚ) :
    List Char × List TokenMapping :=
  let entities := (detectPii offs det m text [] threshold).1
  if entities = [] then (text, [])
  else (buildRedacted text entities, mappingsOf entities)

/-- The ValueError message of restore_text for a missing token. -/
def errMsg (tok : List Char) : List Char :=
  "Token ".toList ++ [Char.ofNat 39] ++ tok ++ [Char.ofNat 39] ++
    " not found in redacted text".toList

/-- Longest-token-first order of restore_text (sorted with reverse=True). -/
def lenGe (a b : TokenMapping) : Bool :=
  decide (b.token.length ≤ a.token.length)

/-- The backslash character of re's replacement-template escapes. -/
def bslash : Char := Char.ofNat 92

/-- ASCII decimal digit. -/
def isDig (c : Char) : Bool := 48 ≤ c.toNat && c.toNat ≤ 57

/-- ASCII octal digit. -/
def isOct (c : Char) : Bool := 48 ≤ c.toNat && c.toNat ≤ 55

/-- ASCII letter. -/
def isAsciiAlpha (c : Char) : Bool :=
  (97 ≤ c.toNat && c.toNat ≤ 122) || (65 ≤ c.toNat && c.toNat ≤ 90)

/-- The value of an ASCII digit character. -/
def digVal (c : Char) : Nat := c.toNat - 48

/-- The fixed two-character escapes of re's replacement templates
(re._parser.ESCAPES): the seven control-character letters and the doubled
backslash. -/
def replEsc (c : Char) : Option Char :=
  if c = 'a' then some (Char.ofNat 7)
  else if c = 'b' then some (Char.ofNat 8)
  else if c = 'f' then some (Char.ofNat 12)
  else if c = 'n' then some (Char.ofNat 10)
  else if c = 'r' then some (Char.ofNat 13)
  else if c = 't' then some (Char.ofNat 9)
  else if c = 'v' then some (Char.ofNat 11)
  else if c = bslash then some bslash
  else none

/-- Split a template group name at its closing angle bracket
(Tokenizer.getuntil); none when the bracket is missing. -/
def splitGt : List Char → Option (List Char × List Char)
  | [] => none
  | c :: rest =>
    if c = '>' then some ([], rest)
    else
      match splitGt rest with
      | none => none
      | some p => some (c :: p.1, p.2)

/-- Does a template group name denote group 0, the whole match? Models
int(name) == 0 for the names parse_template accepts: surrounding whitespace
and one leading sign are tolerated; every other name, in particular every
nonzero group number and every identifier, is an error because the escaped
token pattern defines no groups. (int's further tolerance of underscores and
non-ASCII digits is not modelled.) -/
def gnameZero (name : List Char) : Bool :=
  let t := pyStrip name
  let d := match t with
    | c :: rest => if c = '+' || c = '-' then rest else t
    | [] => t
  !d.isEmpty && d.all (fun c => c == '0')

/-- Up to two further octal digits of a template octal escape that started
with the digit 0, and the remaining characters. -/
def octAfter0 (s : List Char) : Nat × List Char :=
  match s with
  | c1 :: c2 :: rest =>
    if isOct c1 then
      if isOct c2 then (digVal c1 * 8 + digVal c2, rest)
      else (digVal c1, c2 :: rest)
    else (0, c1 :: c2 :: rest)
  | [c1] => if isOct c1 then (digVal c1, []) else (0, [c1])
  | [] => (0, [])

/-- re._parser.parse_template applied to the replacement string of the
re.sub call of restore_text, whose pattern is the re.escape'd token and so
defines no capture groups: the only resolvable group reference is group 0,
the whole match, which is always the token itself. Returns the processed
replacement text, or none where re.sub raises (a bad escape, a lone trailing
backslash, an octal escape above 0o377, a nonzero group reference, or an
unknown group name); the raised exception's message text is not modelled.
The fuel argument bounds the recursion and is irrelevant at or above the
template's length. -/
def parseTemplateCore (tok : List Char) : Nat → List Char → Option (List Char)
  | _, [] => some []
  | 0, _ :: _ => none
  | fuel + 1, c :: rest =>
    if c ≠ bslash then
      (parseTemplateCore tok fuel rest).map (fun r => c :: r)
    else
      match rest with
      | [] => none
      | d :: rest2 =>
        if d = 'g' then
          match rest2 with
          | [] => none
          | lt :: rest3 =>
            if lt = '<' then
              match splitGt rest3 with
              | none => none
              | some p =>
                if gnameZero p.1 then
                  (parseTemplateCore tok fuel p.2).map (fun r => tok ++ r)
                else none
            else none
        else if d = '0' then
          let p := octAfter0 rest2
          (parseTemplateCore tok fuel p.2).map (fun r => Char.ofNat p.1 :: r)
        else if isDig d then
          match rest2 with
          | [] => none
          | d2 :: rest3 =>
            if isDig d2 then
              match rest3 with
              | [] => none
              | d3 :: rest4 =>
                if isOct d && isOct d2 && isOct d3 then
                  let v := (digVal d * 8 + digVal d2) * 8 + digVal d3
                  if v ≤ 255 then
                    (parseTemplateCore tok fuel rest4).map
                      (fun r => Char.ofNat v :: r)
                  else none
                else none
            else none
        else
          match replEsc d with
          | some e => (parseTemplateCore tok fuel rest2).map (fun r => e :: r)
          | none =>
            if isAsciiAlpha d then none
            else (parseTemplateCore tok fuel rest2).map
              (fun r => bslash :: d :: r)

/-- The replacement text re.sub builds from a stored value for the escaped
token pattern, or none where re.sub raises. -/
def parseTemplate (tok v : List Char) : Option (List Char) :=
  parseTemplateCore tok v.length v

/-- The two ways restore_text raises: the ValueError of its own validation,
with its message, and the exception of re.sub on a malformed replacement
template (re.error, or IndexError for an unknown group name; the message
text is not modelled). -/
inductive RestoreErr where
  | valueError (msg : List Char)
  | reError
deriving DecidableEq, Repr

/-- The substitution loop of restore_text: each mapping in turn has its value
escape-processed into a replacement by re.sub, which then replaces every
literal occurrence of the token; an exception raised by re.sub aborts the
loop. -/
def subAll : List TokenMapping → List Char → Except RestoreErr (List Char)
  | [], s => .ok s
  | mp :: rest, s =>
    match parseTemplate mp.token mp.value with
    | none => .error RestoreErr.reError
    | some rv => subAll rest (replaceAll mp.token rv s)

/-- PIIRedactor.restore_text: validate that every token occurs in the redacted
text, raising ValueError on the first missing one; then run the substitution
loop over the mappings sorted longest token first. -/
def restoreText (rt : List Char) (ms : List TokenMapping) :
    Except RestoreErr (List Char) :=
  match ms.find? (fun mp => !isSubstr mp.token rt) with
  | some mp => .error (.valueError (errMsg mp.token))
  | none => subAll (pySort lenGe ms) rt

/-- The sort key of EnhancedPIIRedactor._merge_entities: ascending start,
then descending score. -/
def mergeLe (a b : Entity) : Bool :=
  decide (a.start < b.start) || (decide (a.start = b.start) && decide (b.score ≤ a.score))

/-- The conflict resolution of _merge_entities for an overlapping pair: a
strictly higher score replaces the incumbent; otherwise a same-type pair is
extended to the covering span re-sliced from the text; otherwise the incumbent
stays and the newcomer is dropped. -/
def mergeResolve (text : List Char) (e x : Entity) : Entity :=
  if x.score < e.score then e
  else if e.type = x.type then
    { x with start := min e.start x.start
             stop := max e.stop x.stop
             value := pySlice text (min e.start x.start) (max e.stop x.stop) }
  else x

/-- One step of the merge loop of _merge_entities: resolve against the first
overlapping element, else append at the end. -/
def mergeInsert (text : List Char) (e : Entity) : List Entity → List Entity
  | [] => [e]
  | x :: xs =>
    if ovB e x then mergeResolve text e x :: xs
    else x :: mergeInsert text e xs

/-- EnhancedPIIRedactor._merge_entities: sort by (start, -score) and fold the
merge step. -/
def mergeEntities (text : List Char) (es : List Entity) : List Entity :=
  (pySort mergeLe es).foldl (fun acc e => mergeInsert text e acc) []

/-- The claim's frame description of the redacted text: walk the sorted entity
list, copying the original text between consecutive entity boundaries and
substituting each entity span with its token. Stated from the claim's words to
compare with buildRedacted. -/
def frameSpec (text : List Char) (pos : Nat) : List Entity → List Char
  | [] => text.drop pos
  | e :: rest => pySlice text pos e.start ++ e.token ++ frameSpec text e.stop rest

/-! Lemmas about slices. -/

theorem pySlice_glue (t : List Char) {a b c : Nat} (hab : a ≤ b) (hbc : b ≤ c) :
    pySlice t a b ++ pySlice t b c = pySlice t a c := by
  unfold pySlice
  have h1 : c - a = (b - a) + (c - b) := by omega
  have h2 : a + (b - a) = b := by omega
  rw [h1, List.take_add, List.drop_drop, h2]

theorem pySlice_length (t : List Char) {a b : Nat} (hab : a ≤ b)
    (hb : b ≤ t.length) : (pySlice t a b).length = b - a := by
  unfold pySlice
  rw [List.length_take, List.length_drop]
  omega

theorem pySlice_full (t : List Char) : pySlice t 0 t.length = t := by
  unfold pySlice
  simp

theorem pySlice_drop (t : List Char) (a : Nat) :
    pySlice t a t.length = t.drop a := by
  unfold pySlice
  apply List.take_of_length_le
  rw [List.length_drop]

theorem pySlice_subset (t : List Char) (a b : Nat) :
    pySlice t a b ⊆ t := fun _ hc =>
  (List.drop_subset a t) ((List.take_subset _ _) hc)

theorem pySlice_ne_nil {t : List Char} {a b : Nat}
    (h : pySlice t a b ≠ []) : a < b ∧ a < t.length := by
  by_contra hc
  apply h
  unfold pySlice
  rcases Nat.lt_or_ge a b with h1 | h1
  · have h2 : t.length ≤ a := by omega
    rw [List.drop_eq_nil_of_le h2, List.take_nil]
  · have h2 : b - a = 0 := by omega
    rw [h2, List.take_zero]

/-! Lemmas about leadsWith, isSubstr, occCount and replaceAll. -/

theorem leadsWith_iff (t s : List Char) :
    leadsWith t s = true ↔ ∃ w, s = t ++ w := by
  induction t generalizing s with
  | nil => simp [leadsWith]
  | cons a t ih =>
    cases s with
    | nil =>
      simp only [leadsWith, Bool.false_eq_true, false_iff]
      rintro ⟨w, hw⟩
      exact absurd hw (by simp)
    | cons b s =>
      simp only [leadsWith, Bool.and_eq_true, decide_eq_true_eq, ih]
      constructor
      · rintro ⟨rfl, w, rfl⟩
        exact ⟨w, rfl⟩
      · rintro ⟨w, hw⟩
        rw [List.cons_append] at hw
        injection hw with h1 h2
        exact ⟨h1.symm, w, h2⟩

theorem leadsWith_self (t w : List Char) : leadsWith t (t ++ w) = true :=
  (leadsWith_iff t (t ++ w)).mpr ⟨w, rfl⟩

theorem isSubstr_iff (t s : List Char) :
    isSubstr t s = true ↔ ∃ a b, s = a ++ t ++ b := by
  induction s with
  | nil =>
    simp only [isSubstr, leadsWith_iff]
    constructor
    · rintro ⟨w, hw⟩
      exact ⟨[], w, by simpa using hw⟩
    · rintro ⟨a, b, hab⟩
      have h0 := hab.symm
      rw [List.append_eq_nil] at h0
      obtain ⟨h1, h2⟩ := h0
      rw [List.append_eq_nil] at h1
      exact ⟨b, by simp [h1.2, h2]⟩
  | cons c s ih =>
    simp only [isSubstr, Bool.or_eq_true, leadsWith_iff, ih]
    constructor
    · rintro (⟨w, hw⟩ | ⟨a, b, hab⟩)
      · exact ⟨[], w, by simpa using hw⟩
      · exact ⟨c :: a, b, by simp [hab]⟩
    · rintro ⟨a, b, hab⟩
      cases a with
      | nil => exact .inl ⟨b, by simpa using hab⟩
      | cons a0 a =>
        rw [List.cons_append, List.cons_append] at hab
        injection hab with h1 h2
        exact .inr ⟨a, b, h2⟩

theorem replaceCore_congr (t v : List Char) :
    ∀ (f g : Nat) (s : List Char), s.length ≤ f → s.length ≤ g →
      replaceCore t v f s = replaceCore t v g s := by
  intro f
  induction f with
  | zero =>
    intro g s hf _
    have : s = [] := List.eq_nil_of_length_eq_zero (by omega)
    subst this
    cases g <;> rfl
  | succ f ih =>
    intro g s hf hg
    cases s with
    | nil => cases g <;> rfl
    | cons c s =>
      cases g with
      | zero => simp at hg
      | succ g =>
        simp only [replaceCore]
        simp only [List.length_cons] at hf hg
        have hd : (s.drop (t.length - 1)).length ≤ s.length := by
          rw [List.length_drop]
          omega
        by_cases h : leadsWith t (c :: s) = true
        · rw [h]
          simp only [if_true]
          congr 1
          exact ih g _ (by omega) (by omega)
        · rw [Bool.not_eq_true] at h
          rw [h]
          simp only [Bool.false_eq_true, if_false]
          congr 1
          exact ih g s (by omega) (by omega)

theorem replaceAll_nil {t : List Char} (v : List Char) (ht : t ≠ []) :
    replaceAll t v [] = [] := by
  unfold replaceAll
  rw [if_neg ht]
  rfl

theorem replaceAll_cons {t : List Char} (v : List Char) (c : Char)
    (s : List Char) (ht : t ≠ []) :
    replaceAll t v (c :: s) =
      if leadsWith t (c :: s) then v ++ replaceAll t v (s.drop (t.length - 1))
      else c :: replaceAll t v s := by
  unfold replaceAll
  rw [if_neg ht, if_neg ht, if_neg ht]
  simp only [List.length_cons, replaceCore]
  have hd : (s.drop (t.length - 1)).length ≤ s.length := by
    rw [List.length_drop]
    omega
  by_cases h : leadsWith t (c :: s) = true
  · rw [h]
    simp only [if_true]
    congr 1
    exact replaceCore_congr t v s.length (s.drop (t.length - 1)).length _
      (by omega) le_rfl
  · rw [Bool.not_eq_true] at h
    rw [h]
    simp only [Bool.false_eq_true, if_false]

/-! Tokens are delimited by angle brackets; texts and entity values that are
free of angle brackets cannot interfere with token occurrences. -/

/-- A string free of the token delimiter characters. -/
def Clean (s : List Char) : Prop := ∀ c ∈ s, c ≠ '<' ∧ c ≠ '>'

instance (s : List Char) : Decidable (Clean s) := by
  unfold Clean
  infer_instance

/-- A delimited token: an opening bracket, a delimiter-free body, a closing
bracket. -/
def IsTok (t : List Char) : Prop :=
  ∃ body, t = '<' :: body ++ ['>'] ∧ Clean body

theorem isTok_ne_nil {t : List Char} (h : IsTok t) : t ≠ [] := by
  obtain ⟨b, rfl, -⟩ := h
  simp

theorem isSubstr_of_parts (t a b : List Char) :
    isSubstr t (a ++ t ++ b) = true :=
  (isSubstr_iff t _).mpr ⟨a, b, rfl⟩

theorem leadsWith_lt_head {ts s : List Char} {c : Char} (hc : c ≠ '<') :
    leadsWith ('<' :: ts) (c :: s) = false := by
  unfold leadsWith
  rw [decide_eq_false (fun h => hc h.symm), Bool.false_and]

theorem occCount_cons (t : List Char) (c : Char) (s : List Char) :
    occCount t (c :: s) =
      (if leadsWith t (c :: s) then 1 else 0) + occCount t s := rfl

theorem replaceAll_skip {ts : List Char} (v : List Char) {b : List Char}
    (hb : ∀ c ∈ b, c ≠ '<') (rest : List Char) :
    replaceAll ('<' :: ts) v (b ++ rest) = b ++ replaceAll ('<' :: ts) v rest := by
  induction b with
  | nil => rfl
  | cons c bs ih =>
    rw [List.cons_append, replaceAll_cons v c (bs ++ rest) (by simp)]
    rw [if_neg (by simp [leadsWith_lt_head (hb c (by simp))])]
    rw [List.cons_append, ih (fun d hd => hb d (by simp [hd]))]

theorem occCount_skip {ts : List Char} {b : List Char}
    (hb : ∀ c ∈ b, c ≠ '<') (rest : List Char) :
    occCount ('<' :: ts) (b ++ rest) = occCount ('<' :: ts) rest := by
  induction b with
  | nil => rfl
  | cons c bs ih =>
    rw [List.cons_append, occCount_cons]
    rw [if_neg (by simp [leadsWith_lt_head (hb c (by simp))])]
    rw [Nat.zero_add]
    exact ih (fun d hd => hb d (by simp [hd]))

theorem occCount_nil_of_ne_nil {t : List Char} (ht : t ≠ []) :
    occCount t [] = 0 := by
  cases t with
  | nil => exact absurd rfl ht
  | cons c ts => simp [occCount, leadsWith]

/-- Unique decomposition at the first closing bracket. -/
theorem marker_decomp {b b' x y : List Char} (hb : ∀ c ∈ b, c ≠ '>')
    (hb' : ∀ c ∈ b', c ≠ '>') (h : b ++ '>' :: x = b' ++ '>' :: y) :
    b = b' ∧ x = y := by
  induction b generalizing b' with
  | nil =>
    cases b' with
    | nil =>
      simp only [List.nil_append] at h
      injection h with _ h2
      exact ⟨rfl, h2⟩
    | cons c' bs' =>
      simp only [List.nil_append, List.cons_append] at h
      injection h with h1 _
      exact absurd h1.symm (hb' c' (by simp))
  | cons c bs ih =>
    cases b' with
    | nil =>
      simp only [List.cons_append, List.nil_append] at h
      injection h with h1 _
      exact absurd h1 (hb c (by simp))
    | cons c' bs' =>
      simp only [List.cons_append] at h
      injection h with h1 h2
      obtain ⟨hbb, hxy⟩ := ih (fun d hd => hb d (by simp [hd]))
        (fun d hd => hb' d (by simp [hd])) h2
      exact ⟨by rw [h1, hbb], hxy⟩

theorem clean_ne_gt {b : List Char} (hb : Clean b) : ∀ c ∈ b, c ≠ '>' :=
  fun c hc => (hb c hc).2

theorem clean_ne_lt {b : List Char} (hb : Clean b) : ∀ c ∈ b, c ≠ '<' :=
  fun c hc => (hb c hc).1

theorem cleanGt_append {b : List Char} (hb : Clean b) :
    ∀ c ∈ b ++ ['>'], c ≠ '<' := by
  intro c hc
  rcases List.mem_append.mp hc with h1 | h1
  · exact (hb c h1).1
  · simp only [List.mem_singleton] at h1
    subst h1
    decide

theorem leadsWith_tok_tok {t t' : List Char} (h : IsTok t) (h' : IsTok t')
    (hne : t ≠ t') (rest : List Char) :
    leadsWith t (t' ++ rest) = false := by
  obtain ⟨b, rfl, hb⟩ := h
  obtain ⟨b', rfl, hb'⟩ := h'
  by_contra hc
  rw [Bool.not_eq_false, leadsWith_iff] at hc
  obtain ⟨w, hw⟩ := hc
  have hw2 : b' ++ '>' :: rest = b ++ '>' :: w := by simpa using hw
  obtain ⟨hbb, -⟩ := marker_decomp (clean_ne_gt hb') (clean_ne_gt hb) hw2
  exact hne (by rw [hbb])

theorem replaceAll_tok_self {t : List Char} (h : IsTok t) (v rest : List Char) :
    replaceAll t v (t ++ rest) = v ++ replaceAll t v rest := by
  obtain ⟨b, rfl, hb⟩ := h
  have hshape : ('<' :: b ++ ['>'] : List Char) ++ rest =
      '<' :: ((b ++ ['>']) ++ rest) := by simp
  rw [hshape, replaceAll_cons v '<' ((b ++ ['>']) ++ rest) (by simp), ← hshape]
  rw [if_pos (leadsWith_self _ rest)]
  congr 1
  have hlen : ('<' :: b ++ ['>'] : List Char).length - 1 = (b ++ ['>']).length := by
    simp
  rw [hlen, List.drop_left]

theorem replaceAll_tok_other {t t' : List Char} (h : IsTok t) (h' : IsTok t')
    (hne : t ≠ t') (v rest : List Char) :
    replaceAll t v (t' ++ rest) = t' ++ replaceAll t v rest := by
  have hlw := leadsWith_tok_tok h h' hne rest
  obtain ⟨b, hbt, hb⟩ := h
  obtain ⟨b', rfl, hb'⟩ := h'
  have hshape : ('<' :: b' ++ ['>'] : List Char) ++ rest =
      '<' :: ((b' ++ ['>']) ++ rest) := by simp
  have hlw2 : leadsWith t ('<' :: ((b' ++ ['>']) ++ rest)) = false := by
    rw [← hshape]
    exact hlw
  rw [hshape, replaceAll_cons v '<' ((b' ++ ['>']) ++ rest)
    (isTok_ne_nil ⟨b, hbt, hb⟩)]
  rw [if_neg (by rw [hlw2]; simp)]
  have hskip : replaceAll t v ((b' ++ ['>']) ++ rest) =
      (b' ++ ['>']) ++ replaceAll t v rest := by
    rw [hbt]
    exact replaceAll_skip v (cleanGt_append hb') rest
  rw [hskip]
  simp

theorem occCount_tok_self {t : List Char} (h : IsTok t) (rest : List Char) :
    occCount t (t ++ rest) = 1 + occCount t rest := by
  obtain ⟨b, rfl, hb⟩ := h
  have hshape : ('<' :: b ++ ['>'] : List Char) ++ rest =
      '<' :: ((b ++ ['>']) ++ rest) := by simp
  rw [hshape, occCount_cons, ← hshape]
  rw [if_pos (leadsWith_self _ rest)]
  congr 1
  exact occCount_skip (cleanGt_append hb) rest

theorem occCount_tok_other {t t' : List Char} (h : IsTok t) (h' : IsTok t')
    (hne : t ≠ t') (rest : List Char) :
    occCount t (t' ++ rest) = occCount t rest := by
  have hlw := leadsWith_tok_tok h h' hne rest
  obtain ⟨b, hbt, hb⟩ := h
  obtain ⟨b', rfl, hb'⟩ := h'
  have hshape : ('<' :: b' ++ ['>'] : List Char) ++ rest =
      '<' :: ((b' ++ ['>']) ++ rest) := by simp
  have hlw2 : leadsWith t ('<' :: ((b' ++ ['>']) ++ rest)) = false := by
    rw [← hshape]
    exact hlw
  rw [hshape, occCount_cons]
  rw [if_neg (by rw [hlw2]; simp)]
  rw [Nat.zero_add]
  rw [hbt]
  exact occCount_skip (cleanGt_append hb') rest

/-! Lemmas about the stable sort. -/

theorem insertLe_perm (le : α → α → Bool) (a : α) (l : List α) :
    List.Perm (insertLe le a l) (a :: l) := by
  induction l with
  | nil => exact List.Perm.refl _
  | cons b bs ih =>
    unfold insertLe
    by_cases h : le a b = true
    · rw [if_pos h]
    · rw [if_neg h]
      exact ((ih.cons b).trans (List.Perm.swap a b bs))

theorem pySort_perm (le : α → α → Bool) (l : List α) :
    List.Perm (pySort le l) l := by
  induction l with
  | nil => exact List.Perm.refl _
  | cons a as ih =>
    unfold pySort
    rw [List.foldr_cons]
    exact (insertLe_perm le a _).trans (ih.cons a)

theorem mem_insertLe {le : α → α → Bool} {a x : α} {l : List α}
    (h : x ∈ insertLe le a l) : x = a ∨ x ∈ l :=
  List.mem_cons.mp ((insertLe_perm le a l).mem_iff.mp h)

theorem insertLe_pairwise {le : α → α → Bool}
    (htr : ∀ x y z, le x y = true → le y z = true → le x z = true)
    (hto : ∀ x y, le x y = true ∨ le y x = true) (a : α) {l : List α}
    (hl : l.Pairwise (fun x y => le x y = true)) :
    (insertLe le a l).Pairwise (fun x y => le x y = true) := by
  induction l with
  | nil => simp [insertLe]
  | cons b bs ih =>
    rw [List.pairwise_cons] at hl
    unfold insertLe
    by_cases h : le a b = true
    · rw [if_pos h]
      refine List.pairwise_cons.mpr ⟨?_, List.pairwise_cons.mpr hl⟩
      intro x hx
      rcases List.mem_cons.mp hx with rfl | hx
      · exact h
      · exact htr a b x h (hl.1 x hx)
    · rw [if_neg h]
      refine List.pairwise_cons.mpr ⟨?_, ih hl.2⟩
      intro x hx
      rcases mem_insertLe hx with heq | hx
      · rw [heq]
        rcases hto a b with h1 | h1
        · exact absurd h1 h
        · exact h1
      · exact hl.1 x hx

theorem pySort_pairwise {le : α → α → Bool}
    (htr : ∀ x y z, le x y = true → le y z = true → le x z = true)
    (hto : ∀ x y, le x y = true ∨ le y x = true) (l : List α) :
    (pySort le l).Pairwise (fun x y => le x y = true) := by
  induction l with
  | nil => simp [pySort]
  | cons a as ih =>
    unfold pySort
    rw [List.foldr_cons]
    exact insertLe_pairwise htr hto a ih

/-! Lemmas about decimal rendering. -/

theorem natCharsCore_acc :
    ∀ (f n : Nat) (acc : List Char),
      natCharsCore f n acc = natCharsCore f n [] ++ acc := by
  intro f
  induction f with
  | zero => intro n acc; rfl
  | succ f ih =>
    intro n acc
    unfold natCharsCore
    by_cases h : n < 10
    · rw [if_pos h, if_pos h]
      rfl
    · rw [if_neg h, if_neg h, ih (n / 10) (digCh (n % 10) :: acc),
        ih (n / 10) [digCh (n % 10)]]
      simp

theorem natCharsCore_congr :
    ∀ (f g n : Nat) (acc : List Char), n < f → n < g →
      natCharsCore f n acc = natCharsCore g n acc := by
  intro f
  induction f with
  | zero => intro g n acc hf; omega
  | succ f ih =>
    intro g n acc hf hg
    cases g with
    | zero => omega
    | succ g =>
      unfold natCharsCore
      by_cases h : n < 10
      · rw [if_pos h, if_pos h]
      · rw [if_neg h, if_neg h]
        have hd : n / 10 < n := Nat.div_lt_self (by omega) (by omega)
        exact ih g (n / 10) _ (by omega) (by omega)

theorem natChars_small {n : Nat} (h : n < 10) : natChars n = [digCh n] := by
  unfold natChars natCharsCore
  rw [if_pos h]

theorem natChars_step {n : Nat} (h : 10 ≤ n) :
    natChars n = natChars (n / 10) ++ [digCh (n % 10)] := by
  unfold natChars
  conv_lhs => rw [show n + 1 = (n : Nat) + 1 from rfl]
  unfold natCharsCore
  rw [if_neg (by omega)]
  have hd : n / 10 < n := Nat.div_lt_self (by omega) (by omega)
  rw [natCharsCore_congr n (n / 10 + 1) (n / 10) _ (by omega) (by omega)]
  exact natCharsCore_acc (n / 10 + 1) (n / 10) [digCh (n % 10)]

theorem natChars_ne_nil (n : Nat) : natChars n ≠ [] := by
  by_cases h : n < 10
  · rw [natChars_small h]
    simp
  · rw [natChars_step (by omega)]
    simp

theorem digCh_inj {m n : Nat} (hm : m < 10) (hn : n < 10)
    (h : digCh m = digCh n) : m = n := by
  interval_cases m <;> interval_cases n <;> simp_all [digCh]

theorem digCh_digit {n : Nat} (h : n < 10) : (digCh n).isDigit = true := by
  interval_cases n <;> decide

theorem natChars_digits (n : Nat) : ∀ c ∈ natChars n, c.isDigit = true := by
  induction n using Nat.strong_induction_on with
  | _ n ih =>
    by_cases h : n < 10
    · rw [natChars_small h]
      intro c hc
      simp only [List.mem_singleton] at hc
      subst hc
      exact digCh_digit h
    · rw [natChars_step (by omega)]
      intro c hc
      rcases List.mem_append.mp hc with h1 | h1
      · exact ih (n / 10) (Nat.div_lt_self (by omega) (by omega)) c h1
      · simp only [List.mem_singleton] at h1
        subst h1
        exact digCh_digit (Nat.mod_lt n (by omega))

theorem natChars_inj : ∀ {m n : Nat}, natChars m = natChars n → m = n := by
  intro m
  induction m using Nat.strong_induction_on with
  | _ m ih =>
    intro n h
    by_cases hm : m < 10 <;> by_cases hn : n < 10
    · rw [natChars_small hm, natChars_small hn] at h
      injection h with h1
      exact digCh_inj hm hn h1
    · rw [natChars_small hm, natChars_step (by omega)] at h
      have hlen := congrArg List.length h
      simp only [List.length_singleton, List.length_append] at hlen
      have := natChars_ne_nil (n / 10)
      have hpos : 0 < (natChars (n / 10)).length := List.length_pos.mpr this
      omega
    · rw [natChars_step (by omega), natChars_small hn] at h
      have hlen := congrArg List.length h
      simp only [List.length_singleton, List.length_append] at hlen
      have := natChars_ne_nil (m / 10)
      have hpos : 0 < (natChars (m / 10)).length := List.length_pos.mpr this
      omega
    · rw [natChars_step (show 10 ≤ m by omega)] at h
      rw [natChars_step (show 10 ≤ n by omega)] at h
      obtain ⟨h1, h2⟩ := List.append_inj' h rfl
      injection h2 with h3
      have hdiv := ih (m / 10) (Nat.div_lt_self (by omega) (by omega)) h1
      have hmod := digCh_inj (Nat.mod_lt m (by omega)) (Nat.mod_lt n (by omega)) h3
      omega

/-- Unique decomposition at a separator character failing a predicate that all
characters before it satisfy. -/
theorem sep_decomp {p : Char → Bool} {m : Char} (hm : p m = false)
    {a a' x y : List Char} (ha : ∀ c ∈ a, p c = true)
    (ha' : ∀ c ∈ a', p c = true) (h : a ++ m :: x = a' ++ m :: y) :
    a = a' ∧ x = y := by
  induction a generalizing a' with
  | nil =>
    cases a' with
    | nil =>
      simp only [List.nil_append] at h
      injection h with _ h2
      exact ⟨rfl, h2⟩
    | cons c' bs' =>
      simp only [List.nil_append, List.cons_append] at h
      injection h with h1 _
      rw [← h1] at ha'
      have := ha' m (by simp)
      rw [hm] at this
      cases this
  | cons c bs ih =>
    cases a' with
    | nil =>
      simp only [List.cons_append, List.nil_append] at h
      injection h with h1 _
      rw [h1] at ha
      have := ha m (by simp)
      rw [hm] at this
      cases this
    | cons c' bs' =>
      simp only [List.cons_append] at h
      injection h with h1 h2
      obtain ⟨hbb, hxy⟩ := ih (fun d hd => ha d (by simp [hd]))
        (fun d hd => ha' d (by simp [hd])) h2
      exact ⟨by rw [h1, hbb], hxy⟩

theorem mkTok_inj {c1 c2 : List Char} {k1 k2 : Nat}
    (h : mkTok c1 k1 = mkTok c2 k2) : c1 = c2 ∧ k1 = k2 := by
  unfold mkTok at h
  injection h with _ h
  injection h with _ h
  injection h with _ h
  injection h with _ h
  injection h with _ h
  have key : ∀ (c : List Char) (k : Nat),
      (c ++ '_' :: natChars k ++ ['>']).reverse =
        '>' :: ((natChars k).reverse ++ '_' :: c.reverse) := by
    intro c k
    simp
  have hd1 : ∀ c ∈ (natChars k1).reverse, c.isDigit = true := by
    intro c hc
    exact natChars_digits k1 c (List.mem_reverse.mp hc)
  have hd2 : ∀ c ∈ (natChars k2).reverse, c.isDigit = true := by
    intro c hc
    exact natChars_digits k2 c (List.mem_reverse.mp hc)
  have hrev2 : ('>' : Char) :: ((natChars k1).reverse ++ '_' :: c1.reverse) =
      '>' :: ((natChars k2).reverse ++ '_' :: c2.reverse) := by
    rw [← key c1 k1, ← key c2 k2]
    exact congrArg List.reverse h
  injection hrev2 with _ h3
  obtain ⟨ha, hb⟩ := sep_decomp (by decide) hd1 hd2 h3
  constructor
  · have := congrArg List.reverse hb
    simpa using this
  · apply natChars_inj
    have := congrArg List.reverse ha
    simpa using this

theorem digit_clean {c : Char} (h : c.isDigit = true) : c ≠ '<' ∧ c ≠ '>' := by
  constructor <;> rintro rfl <;> simp [Char.isDigit] at h

theorem isTok_mkTok {disp : List Char} (hd : Clean disp) (k : Nat) :
    IsTok (mkTok disp k) := by
  refine ⟨'P' :: 'I' :: 'I' :: '_' :: (disp ++ '_' :: natChars k), by
    unfold mkTok
    simp, ?_⟩
  intro c hc
  rcases List.mem_cons.mp hc with rfl | hc
  · exact ⟨by decide, by decide⟩
  rcases List.mem_cons.mp hc with rfl | hc
  · exact ⟨by decide, by decide⟩
  rcases List.mem_cons.mp hc with rfl | hc
  · exact ⟨by decide, by decide⟩
  rcases List.mem_cons.mp hc with rfl | hc
  · exact ⟨by decide, by decide⟩
  rcases List.mem_append.mp hc with hc | hc
  · exact hd c hc
  rcases List.mem_cons.mp hc with rfl | hc
  · exact ⟨by decide, by decide⟩
  exact digit_clean (natChars_digits k c hc)

/-! Characterization of token assignment. -/

/-- Number of entities of a given display category. -/
def dispCount (m : TypeMap) (d : List Char) (es : List Entity) : Nat :=
  (es.filter (fun e => displayOf m e.type = d)).length

theorem assignTokens_length (m : TypeMap) :
    ∀ (es : List Entity) (ctr : Ctr),
      (assignTokens m ctr es).1.length = es.length := by
  intro es
  induction es with
  | nil => intro ctr; rfl
  | cons e rest ih =>
    intro ctr
    simp only [assignTokens, List.length_cons]
    rw [ih]

theorem ctrGet_nil (k : List Char) : ctrGet [] k = 0 := rfl

theorem ctrGet_cons (p : List Char × Nat) (ps : Ctr) (k : List Char) :
    ctrGet (p :: ps) k = if p.1 = k then p.2 else ctrGet ps k := by
  simp only [ctrGet, List.find?]
  by_cases h : p.1 = k
  · simp [h]
  · simp [h]

theorem ctrGet_ctrSet (k k' : List Char) (n : Nat) :
    ∀ ctr : Ctr,
      ctrGet (ctrSet ctr k n) k' = if k' = k then n else ctrGet ctr k' := by
  intro ctr
  induction ctr with
  | nil =>
    rw [show ctrSet [] k n = [(k, n)] from rfl, ctrGet_cons]
    by_cases h : k' = k
    · rw [if_pos h.symm, if_pos h]
    · rw [if_neg (fun hc => h hc.symm), if_neg h]
  | cons p ps ih =>
    by_cases hp : p.1 = k
    · rw [show ctrSet (p :: ps) k n = (k, n) :: ps from by simp [ctrSet, hp]]
      rw [ctrGet_cons, ctrGet_cons]
      by_cases h : k' = k
      · rw [if_pos h.symm, if_pos h]
      · rw [if_neg (fun hc => h hc.symm), if_neg h,
          if_neg (show ¬ p.1 = k' from by rw [hp]; exact fun hc => h hc.symm)]
    · rw [show ctrSet (p :: ps) k n = p :: ctrSet ps k n from by simp [ctrSet, hp]]
      rw [ctrGet_cons, ctrGet_cons]
      by_cases hq : p.1 = k'
      · rw [if_pos hq, if_pos hq, if_neg (fun hc => hp (by rw [hq, hc]))]
      · rw [if_neg hq, if_neg hq, ih]

theorem assignTokens_get (m : TypeMap) :
    ∀ (es : List Entity) (ctr : Ctr) (i : Nat) (h : i < es.length),
      (assignTokens m ctr es).1.get
          ⟨i, by rw [assignTokens_length]; exact h⟩ =
        { es.get ⟨i, h⟩ with
            token := mkTok (displayOf m (es.get ⟨i, h⟩).type)
              (ctrGet ctr (displayOf m (es.get ⟨i, h⟩).type) +
                dispCount m (displayOf m (es.get ⟨i, h⟩).type) (es.take i) + 1) } := by
  intro es
  induction es with
  | nil =>
    intro ctr i h
    simp at h
  | cons e rest ih =>
    intro ctr i h
    cases i with
    | zero =>
      simp [assignTokens, generateRedactionToken, dispCount, List.get]
    | succ i =>
      have hi : i < rest.length := by
        simp only [List.length_cons] at h
        omega
      have lhs :
          (assignTokens m ctr (e :: rest)).1.get
              ⟨i + 1, by rw [assignTokens_length]; exact h⟩ =
            (assignTokens m
                (ctrSet ctr (displayOf m e.type)
                  (ctrGet ctr (displayOf m e.type) + 1)) rest).1.get
              ⟨i, by rw [assignTokens_length]; exact hi⟩ := by
        simp [assignTokens, generateRedactionToken]
      rw [lhs, ih _ i hi]
      have hget : (e :: rest).get ⟨i + 1, h⟩ = rest.get ⟨i, hi⟩ := rfl
      rw [hget]
      set d := displayOf m (rest.get ⟨i, hi⟩).type with hd
      have htake : (e :: rest).take (i + 1) = e :: rest.take i := rfl
      rw [htake]
      have hcnt : dispCount m d (e :: rest.take i) =
          (if displayOf m e.type = d then 1 else 0) +
            dispCount m d (rest.take i) := by
        unfold dispCount
        rw [List.filter_cons]
        by_cases hc : displayOf m e.type = d
        · rw [if_pos (by simpa using hc), if_pos hc]
          simp only [List.length_cons]
          omega
        · rw [if_neg (by simpa using hc), if_neg hc]
          omega
      rw [hcnt, ctrGet_ctrSet]
      have harith :
          (if d = displayOf m e.type then ctrGet ctr (displayOf m e.type) + 1
            else ctrGet ctr d) + dispCount m d (rest.take i) + 1 =
          ctrGet ctr d +
            ((if displayOf m e.type = d then 1 else 0) +
              dispCount m d (rest.take i)) + 1 := by
        by_cases hc : displayOf m e.type = d
        · rw [if_pos hc.symm, if_pos hc, hc]
          omega
        · rw [if_neg (fun hx => hc hx.symm), if_neg hc]
          omega
      rw [harith]

theorem assignTokens_mem (m : TypeMap) :
    ∀ (es : List Entity) (ctr : Ctr),
      ∀ x ∈ (assignTokens m ctr es).1,
        ∃ e ∈ es, ∃ k : Nat, 1 ≤ k ∧
          x = { e with token := mkTok (displayOf m e.type) k } := by
  intro es
  induction es with
  | nil =>
    intro ctr x hx
    simp [assignTokens] at hx
  | cons e rest ih =>
    intro ctr x hx
    simp only [assignTokens, List.mem_cons] at hx
    rcases hx with rfl | hx
    · exact ⟨e, by simp, ctrGet ctr (displayOf m e.type) + 1, by omega,
        by simp [generateRedactionToken]⟩
    · obtain ⟨e', he', k, hk, hx⟩ := ih _ x hx
      exact ⟨e', by simp [he'], k, hk, hx⟩

theorem assignTokens_mem_count (m : TypeMap) :
    ∀ (es : List Entity) (ctr : Ctr),
      ∀ x ∈ (assignTokens m ctr es).1,
        ∃ e ∈ es, ∃ k : Nat,
          ctrGet ctr (displayOf m e.type) + 1 ≤ k ∧
          x = { e with token := mkTok (displayOf m e.type) k } := by
  intro es
  induction es with
  | nil =>
    intro ctr x hx
    simp [assignTokens] at hx
  | cons e rest ih =>
    intro ctr x hx
    simp only [assignTokens, List.mem_cons] at hx
    rcases hx with rfl | hx
    · exact ⟨e, by simp, ctrGet ctr (displayOf m e.type) + 1, le_rfl,
        by simp [generateRedactionToken]⟩
    · obtain ⟨e', he', k, hk, hx⟩ := ih _ x hx
      refine ⟨e', by simp [he'], k, ?_, hx⟩
      simp only [generateRedactionToken] at hk
      rw [ctrGet_ctrSet] at hk
      by_cases hc : displayOf m e'.type = displayOf m e.type
      · rw [if_pos hc] at hk
        rw [hc]
        omega
      · rw [if_neg hc] at hk
        omega

theorem assignTokens_token_distinct (m : TypeMap) :
    ∀ (es : List Entity) (ctr : Ctr),
      (assignTokens m ctr es).1.Pairwise (fun a b => a.token ≠ b.token) := by
  intro es
  induction es with
  | nil =>
    intro ctr
    simp [assignTokens]
  | cons e rest ih =>
    intro ctr
    set g := ctrGet ctr (displayOf m e.type) with hg
    have hstep : (assignTokens m ctr (e :: rest)).1 =
        { e with token := mkTok (displayOf m e.type) (g + 1) } ::
          (assignTokens m (ctrSet ctr (displayOf m e.type) (g + 1)) rest).1 := by
      simp [assignTokens, generateRedactionToken]
    rw [hstep]
    refine List.pairwise_cons.mpr ⟨?_, ih _⟩
    intro x hx
    obtain ⟨e', he', k, hk, rfl⟩ := assignTokens_mem_count m rest _ x hx
    simp only
    intro hEq
    obtain ⟨hd, hc⟩ := mkTok_inj hEq
    rw [ctrGet_ctrSet, ← hd, if_pos rfl] at hk
    omega

/-! The redacted text as an interleaving of clean segments and tokens, and the
effect of literal replacement on such interleavings. -/

/-- One entity position inside the redacted text: its token, its original
value, whether the token has been replaced back by the value yet, and the
clean text segment that follows it. -/
structure RPiece where
  tok : List Char
  val : List Char
  rep : Bool
  seg : List Char
deriving DecidableEq, Repr

/-- A leading segment followed by pieces. -/
def assemble (s0 : List Char) : List RPiece → List Char
  | [] => s0
  | p :: ps => s0 ++ (if p.rep then p.val else p.tok) ++ assemble p.seg ps

/-- All pieces have delimited tokens and delimiter-free values and segments. -/
def GoodPieces (ps : List RPiece) : Prop :=
  ∀ p ∈ ps, IsTok p.tok ∧ Clean p.val ∧ Clean p.seg

theorem assemble_cons (s0 : List Char) (p : RPiece) (ps : List RPiece) :
    assemble s0 (p :: ps) =
      s0 ++ (if p.rep then p.val else p.tok) ++ assemble p.seg ps := rfl

theorem replaceAll_skip2 {t : List Char} (h : IsTok t) (v : List Char)
    {b : List Char} (hb : ∀ c ∈ b, c ≠ '<') (rest : List Char) :
    replaceAll t v (b ++ rest) = b ++ replaceAll t v rest := by
  obtain ⟨body, rfl, -⟩ := h
  exact replaceAll_skip v hb rest

theorem occCount_skip2 {t : List Char} (h : IsTok t)
    {b : List Char} (hb : ∀ c ∈ b, c ≠ '<') (rest : List Char) :
    occCount t (b ++ rest) = occCount t rest := by
  obtain ⟨body, rfl, -⟩ := h
  exact occCount_skip hb rest

theorem replaceAll_clean {t : List Char} (h : IsTok t) (v : List Char)
    {s : List Char} (hs : Clean s) : replaceAll t v s = s := by
  have h2 := replaceAll_skip2 h v (clean_ne_lt hs) []
  rw [List.append_nil, replaceAll_nil v (isTok_ne_nil h), List.append_nil] at h2
  exact h2

theorem occCount_clean {t : List Char} (h : IsTok t)
    {s : List Char} (hs : Clean s) : occCount t s = 0 := by
  have h2 := occCount_skip2 h (clean_ne_lt hs) []
  rw [List.append_nil, occCount_nil_of_ne_nil (isTok_ne_nil h)] at h2
  exact h2

theorem replaceAll_assemble_none {t v : List Char} (h : IsTok t) :
    ∀ {ps : List RPiece} {s0 : List Char}, Clean s0 → GoodPieces ps →
      (∀ p ∈ ps, p.tok ≠ t) →
      replaceAll t v (assemble s0 ps) = assemble s0 ps := by
  intro ps
  induction ps with
  | nil =>
    intro s0 h0 _ _
    exact replaceAll_clean h v h0
  | cons p ps ih =>
    intro s0 h0 hg hno
    obtain ⟨hptok, hpval, hpseg⟩ := hg p (by simp)
    rw [assemble_cons, List.append_assoc, replaceAll_skip2 h v (clean_ne_lt h0)]
    congr 1
    have htail := ih hpseg (fun q hq => hg q (by simp [hq]))
      (fun q hq => hno q (by simp [hq]))
    by_cases hr : p.rep = true
    · rw [hr]
      simp only [if_true]
      rw [replaceAll_skip2 h v (clean_ne_lt hpval)]
      rw [htail]
    · rw [Bool.not_eq_true] at hr
      rw [hr]
      simp only [Bool.false_eq_true, if_false]
      rw [replaceAll_tok_other h hptok (fun he => hno p (by simp) he.symm)]
      rw [htail]

theorem occCount_assemble_none {t : List Char} (h : IsTok t) :
    ∀ {ps : List RPiece} {s0 : List Char}, Clean s0 → GoodPieces ps →
      (∀ p ∈ ps, p.tok ≠ t) →
      occCount t (assemble s0 ps) = 0 := by
  intro ps
  induction ps with
  | nil =>
    intro s0 h0 _ _
    exact occCount_clean h h0
  | cons p ps ih =>
    intro s0 h0 hg hno
    obtain ⟨hptok, hpval, hpseg⟩ := hg p (by simp)
    rw [assemble_cons, List.append_assoc, occCount_skip2 h (clean_ne_lt h0)]
    have htail := ih hpseg (fun q hq => hg q (by simp [hq]))
      (fun q hq => hno q (by simp [hq]))
    by_cases hr : p.rep = true
    · rw [hr]
      simp only [if_true]
      rw [occCount_skip2 h (clean_ne_lt hpval)]
      exact htail
    · rw [Bool.not_eq_true] at hr
      rw [hr]
      simp only [Bool.false_eq_true, if_false]
      rw [occCount_tok_other h hptok (fun he => hno p (by simp) he.symm)]
      exact htail

theorem replaceAll_assemble_one {p : RPiece} (hptok : IsTok p.tok) :
    ∀ {L1 L2 : List RPiece} {s0 : List Char}, Clean s0 →
      GoodPieces (L1 ++ p :: L2) → p.rep = false →
      (∀ q ∈ L1, q.tok ≠ p.tok) → (∀ q ∈ L2, q.tok ≠ p.tok) →
      replaceAll p.tok p.val (assemble s0 (L1 ++ p :: L2)) =
        assemble s0 (L1 ++ { p with rep := true } :: L2) := by
  intro L1
  induction L1 with
  | nil =>
    intro L2 s0 h0 hg hrep hno1 hno2
    obtain ⟨-, hpval, hpseg⟩ := hg p (by simp)
    rw [List.nil_append, List.nil_append, assemble_cons, assemble_cons, hrep]
    simp only [Bool.false_eq_true, if_false, if_true]
    rw [List.append_assoc, replaceAll_skip2 hptok p.val (clean_ne_lt h0),
      replaceAll_tok_self hptok]
    have hnone := replaceAll_assemble_none (v := p.val) hptok hpseg
      (fun q hq => hg q (by simp [hq])) hno2
    rw [hnone]
    simp
  | cons q L1 ih =>
    intro L2 s0 h0 hg hrep hno1 hno2
    obtain ⟨hqtok, hqval, hqseg⟩ := hg q (by simp)
    rw [List.cons_append, List.cons_append, assemble_cons, assemble_cons,
      List.append_assoc, replaceAll_skip2 hptok p.val (clean_ne_lt h0)]
    have htail := ih hqseg (fun r hr => hg r (by simp [hr]))
      hrep (fun r hr => hno1 r (by simp [hr])) hno2
    have hgoal : replaceAll p.tok p.val
        ((if q.rep then q.val else q.tok) ++ assemble q.seg (L1 ++ p :: L2)) =
        (if q.rep then q.val else q.tok) ++
          assemble q.seg (L1 ++ { p with rep := true } :: L2) := by
      by_cases hr : q.rep = true
      · rw [hr]
        simp only [if_true]
        rw [replaceAll_skip2 hptok p.val (clean_ne_lt hqval), htail]
      · rw [Bool.not_eq_true] at hr
        rw [hr]
        simp only [Bool.false_eq_true, if_false]
        rw [replaceAll_tok_other hptok hqtok
          (fun he => hno1 q (by simp) he.symm), htail]
    rw [hgoal]
    simp [List.append_assoc]

theorem occCount_assemble_one {p : RPiece} (hptok : IsTok p.tok) :
    ∀ {L1 L2 : List RPiece} {s0 : List Char}, Clean s0 →
      GoodPieces (L1 ++ p :: L2) → p.rep = false →
      (∀ q ∈ L1, q.tok ≠ p.tok) → (∀ q ∈ L2, q.tok ≠ p.tok) →
      occCount p.tok (assemble s0 (L1 ++ p :: L2)) = 1 := by
  intro L1
  induction L1 with
  | nil =>
    intro L2 s0 h0 hg hrep hno1 hno2
    obtain ⟨-, hpval, hpseg⟩ := hg p (by simp)
    rw [List.nil_append, assemble_cons, hrep]
    simp only [Bool.false_eq_true, if_false]
    rw [List.append_assoc, occCount_skip2 hptok (clean_ne_lt h0),
      occCount_tok_self hptok]
    have hnone := occCount_assemble_none hptok hpseg
      (fun r hr => hg r (by simp [hr])) hno2
    rw [hnone]
  | cons q L1 ih =>
    intro L2 s0 h0 hg hrep hno1 hno2
    obtain ⟨hqtok, hqval, hqseg⟩ := hg q (by simp)
    rw [List.cons_append, assemble_cons,
      List.append_assoc, occCount_skip2 hptok (clean_ne_lt h0)]
    have htail := ih hqseg (fun r hr => hg r (by simp [hr]))
      hrep (fun r hr => hno1 r (by simp [hr])) hno2
    by_cases hr : q.rep = true
    · rw [hr]
      simp only [if_true]
      rw [occCount_skip2 hptok (clean_ne_lt hqval)]
      exact htail
    · rw [Bool.not_eq_true] at hr
      rw [hr]
      simp only [Bool.false_eq_true, if_false]
      rw [occCount_tok_other hptok hqtok (fun he => hno1 q (by simp) he.symm)]
      exact htail

theorem assemble_decomp (p : RPiece) :
    ∀ (L1 : List RPiece) (L2 : List RPiece) (s0 : List Char),
      ∃ A : List Char, assemble s0 (L1 ++ p :: L2) =
        A ++ (if p.rep then p.val else p.tok) ++ assemble p.seg L2 := by
  intro L1
  induction L1 with
  | nil =>
    intro L2 s0
    exact ⟨s0, rfl⟩
  | cons q L1 ih =>
    intro L2 s0
    obtain ⟨A, hA⟩ := ih L2 q.seg
    refine ⟨s0 ++ (if q.rep then q.val else q.tok) ++ A, ?_⟩
    rw [List.cons_append, assemble_cons, hA]
    simp [List.append_assoc]

theorem isSubstr_assemble {p : RPiece} (hrep : p.rep = false)
    (L1 L2 : List RPiece) (s0 : List Char) :
    isSubstr p.tok (assemble s0 (L1 ++ p :: L2)) = true := by
  obtain ⟨A, hA⟩ := assemble_decomp p L1 L2 s0
  rw [hA, hrep]
  simp only [Bool.false_eq_true, if_false]
  exact isSubstr_of_parts _ _ _

/-- The pending (token, value) pairs of unreplaced pieces. -/
def pendToks (ps : List RPiece) : List (List Char × List Char) :=
  (ps.filter (fun p => !p.rep)).map (fun p => (p.tok, p.val))

/-- Mark a piece as replaced. -/
def setRep (p : RPiece) : RPiece := { p with rep := true }

theorem pendToks_cons (p : RPiece) (ps : List RPiece) :
    pendToks (p :: ps) =
      (if p.rep then [] else [(p.tok, p.val)]) ++ pendToks ps := by
  unfold pendToks
  rw [List.filter_cons]
  by_cases h : p.rep = true
  · simp [h]
  · rw [Bool.not_eq_true] at h
    simp [h]

theorem pendToks_append (l1 l2 : List RPiece) :
    pendToks (l1 ++ l2) = pendToks l1 ++ pendToks l2 := by
  unfold pendToks
  rw [List.filter_append, List.map_append]

theorem pendToks_nil_rep {ps : List RPiece} (h : pendToks ps = []) :
    ∀ p ∈ ps, p.rep = true := by
  intro p hp
  by_contra hc
  rw [Bool.not_eq_true] at hc
  have : (p.tok, p.val) ∈ pendToks ps := by
    unfold pendToks
    exact List.mem_map_of_mem _ (List.mem_filter.mpr ⟨hp, by simp [hc]⟩)
  rw [h] at this
  simp at this

theorem setRep_of_rep {p : RPiece} (h : p.rep = true) : setRep p = p := by
  cases p
  simp only [setRep]
  simp_all

theorem pend_mem_decomp {q : List Char × List Char} :
    ∀ {ps : List RPiece}, q ∈ pendToks ps →
      ∃ L1 p L2, ps = L1 ++ p :: L2 ∧ p.rep = false ∧
        p.tok = q.1 ∧ p.val = q.2 := by
  intro ps
  induction ps with
  | nil =>
    intro hq
    simp [pendToks] at hq
  | cons r ps ih =>
    intro hq
    rw [pendToks_cons] at hq
    by_cases hr : r.rep = true
    · rw [if_pos hr, List.nil_append] at hq
      obtain ⟨L1, p, L2, rfl, h1, h2, h3⟩ := ih hq
      exact ⟨r :: L1, p, L2, rfl, h1, h2, h3⟩
    · rw [Bool.not_eq_true] at hr
      rw [hr] at hq
      simp only [Bool.false_eq_true, if_false, List.singleton_append,
        List.mem_cons] at hq
      rcases hq with rfl | hq
      · exact ⟨[], r, ps, rfl, hr, rfl, rfl⟩
      · obtain ⟨L1, p, L2, rfl, h1, h2, h3⟩ := ih hq
        exact ⟨r :: L1, p, L2, rfl, h1, h2, h3⟩

theorem fold_replace :
    ∀ (order : List (List Char × List Char)) (ps : List RPiece)
      (s0 : List Char), Clean s0 → GoodPieces ps →
      ps.Pairwise (fun a b => a.tok ≠ b.tok) →
      List.Perm order (pendToks ps) →
      List.foldl (fun s q => replaceAll q.1 q.2 s) (assemble s0 ps) order =
        assemble s0 (ps.map setRep) := by
  intro order
  induction order with
  | nil =>
    intro ps s0 h0 hg hp hperm
    have hnil : pendToks ps = [] := hperm.symm.eq_nil
    have hall := pendToks_nil_rep hnil
    have hmap : ∀ (l : List RPiece), (∀ p ∈ l, p.rep = true) →
        l.map setRep = l := by
      intro l
      induction l with
      | nil => intro _; rfl
      | cons a l ihl =>
        intro hal
        simp only [List.map_cons]
        rw [setRep_of_rep (hal a (by simp)),
          ihl (fun p hp => hal p (by simp [hp]))]
    rw [List.foldl_nil, hmap ps hall]
  | cons q order ih =>
    intro ps s0 h0 hg hp hperm
    have hq : q ∈ pendToks ps := hperm.mem_iff.mp (by simp)
    obtain ⟨L1, p, L2, rfl, hrep, htok, hval⟩ := pend_mem_decomp hq
    rw [List.pairwise_append] at hp
    obtain ⟨hp1, hp2, hcross⟩ := hp
    have hpl2 := List.pairwise_cons.mp hp2
    have hno1 : ∀ r ∈ L1, r.tok ≠ p.tok := fun r hr => hcross r hr p (by simp)
    have hno2 : ∀ r ∈ L2, r.tok ≠ p.tok :=
      fun r hr he => hpl2.1 r hr he.symm
    have hptok : IsTok p.tok := (hg p (by simp)).1
    rw [List.foldl_cons]
    have hstep := replaceAll_assemble_one hptok h0 hg hrep hno1 hno2
    rw [← htok, ← hval, hstep]
    have hgood : GoodPieces (L1 ++ { p with rep := true } :: L2) := by
      intro r hr
      rcases List.mem_append.mp hr with h1 | h1
      · exact hg r (by simp [h1])
      · rcases List.mem_cons.mp h1 with rfl | h1
        · simpa using hg p (by simp)
        · exact hg r (by simp [h1])
    have hpair : (L1 ++ { p with rep := true } :: L2).Pairwise
        (fun a b => a.tok ≠ b.tok) := by
      refine List.pairwise_append.mpr ⟨hp1,
        List.pairwise_cons.mpr ⟨?_, hpl2.2⟩, ?_⟩
      · intro b hb
        exact hpl2.1 b hb
      · intro a ha b hb
        rcases List.mem_cons.mp hb with rfl | hb
        · exact hcross a ha p (by simp)
        · exact hcross a ha b (by simp [hb])
    have hqeq : (p.tok, p.val) = q := by rw [htok, hval]
    have hperm2 : List.Perm order
        (pendToks (L1 ++ { p with rep := true } :: L2)) := by
      have hpend : pendToks (L1 ++ { p with rep := true } :: L2) =
          pendToks L1 ++ pendToks L2 := by
        rw [pendToks_append, pendToks_cons]
        simp
      rw [hpend]
      have hpend0 : pendToks (L1 ++ p :: L2) =
          pendToks L1 ++ (p.tok, p.val) :: pendToks L2 := by
        rw [pendToks_append, pendToks_cons, hrep]
        simp
      rw [hpend0, hqeq] at hperm
      have hmid : List.Perm (pendToks L1 ++ q :: pendToks L2)
          (q :: (pendToks L1 ++ pendToks L2)) := List.perm_middle
      exact (hperm.trans hmid).cons_inv
    rw [ih (L1 ++ { p with rep := true } :: L2) s0 h0 hgood hpair hperm2]
    have hsr : setRep { p with rep := true } = setRep p := rfl
    rw [List.map_append, List.map_cons, List.map_append, List.map_cons, hsr]

/-! Bridging the redaction builder to the interleaving. -/

/-- The position where the segment before the next entity ends. -/
def headBound (text : List Char) : List Entity → Nat
  | [] => text.length
  | e :: _ => e.start

/-- An unreplaced piece. -/
def mkPiece (tk vl sg : List Char) : RPiece :=
  { tok := tk, val := vl, rep := false, seg := sg }

theorem mkPiece_rep (tk vl sg : List Char) : (mkPiece tk vl sg).rep = false := rfl

theorem mkPiece_tok (tk vl sg : List Char) : (mkPiece tk vl sg).tok = tk := rfl

theorem setRep_rep (p : RPiece) : (setRep p).rep = true := rfl

/-- The pieces of the redacted text for a final entity list. -/
def piecesOf (text : List Char) : List Entity → List RPiece
  | [] => []
  | e :: rest =>
    mkPiece e.token (pySlice text e.start e.stop)
      (pySlice text e.stop (headBound text rest)) :: piecesOf text rest

theorem piecesOf_cons (text : List Char) (e : Entity) (rest : List Entity) :
    piecesOf text (e :: rest) =
      mkPiece e.token (pySlice text e.start e.stop)
        (pySlice text e.stop (headBound text rest)) :: piecesOf text rest := rfl

theorem clean_slice {t : List Char} (h : Clean t) (a b : Nat) :
    Clean (pySlice t a b) :=
  fun c hc => h c (pySlice_subset t a b hc)

theorem clean_drop {t : List Char} (h : Clean t) (a : Nat) :
    Clean (t.drop a) :=
  fun c hc => h c (List.drop_subset a t hc)

theorem buildRedacted_eq_assemble (text : List Char) :
    ∀ (es : List Entity) (pos : Nat),
      (redactParts text pos es).flatten =
        assemble (pySlice text pos (headBound text es)) (piecesOf text es) := by
  intro es
  induction es with
  | nil =>
    intro pos
    show (List.flatten [text.drop pos]) =
      assemble (pySlice text pos text.length) []
    rw [pySlice_drop]
    simp [assemble]
  | cons e rest ih =>
    intro pos
    show (pySlice text pos e.start :: e.token ::
      redactParts text e.stop rest).flatten = _
    rw [piecesOf_cons, assemble_cons, mkPiece_rep]
    simp only [List.flatten_cons, Bool.false_eq_true, if_false]
    rw [ih e.stop]
    simp [List.append_assoc, headBound, mkPiece]

theorem assemble_setRep_eq_drop (text : List Char) :
    ∀ (es : List Entity) (pos : Nat), pos ≤ headBound text es →
      List.Chain' (fun a b => a.stop ≤ b.start) es →
      (∀ e ∈ es, e.start ≤ e.stop ∧ e.stop ≤ text.length) →
      assemble (pySlice text pos (headBound text es))
        ((piecesOf text es).map setRep) = text.drop pos := by
  intro es
  induction es with
  | nil =>
    intro pos hpos _ _
    show assemble (pySlice text pos text.length) [] = text.drop pos
    rw [pySlice_drop]
    rfl
  | cons e rest ih =>
    intro pos hpos hchain hb
    obtain ⟨hse, hbe⟩ := hb e (by simp)
    have hpe : pos ≤ e.start := hpos
    have hnext : e.stop ≤ headBound text rest := by
      cases rest with
      | nil => exact hbe
      | cons e2 rest2 =>
        have := List.chain'_cons.mp hchain
        exact this.1
    rw [piecesOf_cons, List.map_cons, assemble_cons, setRep_rep]
    simp only [if_true]
    rw [show (setRep (mkPiece e.token (pySlice text e.start e.stop)
      (pySlice text e.stop (headBound text rest)))).seg =
        pySlice text e.stop (headBound text rest) from rfl]
    rw [ih e.stop hnext (List.Chain'.tail hchain)
      (fun x hx => hb x (by simp [hx]))]
    show pySlice text pos e.start ++ pySlice text e.start e.stop ++
      text.drop e.stop = text.drop pos
    rw [pySlice_glue text hpe hse]
    have hd : text.drop e.stop = pySlice text e.stop text.length :=
      (pySlice_drop text e.stop).symm
    rw [hd, pySlice_glue text (le_trans hpe hse) hbe, pySlice_drop]

theorem piecesOf_mem (text : List Char) :
    ∀ {es : List Entity} {q : RPiece}, q ∈ piecesOf text es →
      ∃ e ∈ es, q.tok = e.token := by
  intro es
  induction es with
  | nil =>
    intro q hq
    simp [piecesOf] at hq
  | cons e rest ih =>
    intro q hq
    rw [piecesOf_cons] at hq
    rcases List.mem_cons.mp hq with rfl | hq
    · exact ⟨e, by simp, rfl⟩
    · obtain ⟨e', he', h⟩ := ih hq
      exact ⟨e', by simp [he'], h⟩

theorem piecesOf_good (text : List Char) (hct : Clean text) :
    ∀ es : List Entity, (∀ e ∈ es, IsTok e.token) →
      GoodPieces (piecesOf text es) := by
  intro es
  induction es with
  | nil =>
    intro _ q hq
    simp [piecesOf] at hq
  | cons e rest ih =>
    intro htok q hq
    rw [piecesOf_cons] at hq
    rcases List.mem_cons.mp hq with rfl | hq
    · exact ⟨htok e (by simp), clean_slice hct _ _, clean_slice hct _ _⟩
    · exact ih (fun x hx => htok x (by simp [hx])) q hq

theorem piecesOf_pend (text : List Char) :
    ∀ es : List Entity, pendToks (piecesOf text es) =
      es.map (fun e => (e.token, pySlice text e.start e.stop)) := by
  intro es
  induction es with
  | nil => rfl
  | cons e rest ih =>
    rw [piecesOf_cons, pendToks_cons, mkPiece_rep]
    simp only [Bool.false_eq_true, if_false, List.singleton_append,
      List.map_cons]
    rw [ih]
    rfl

theorem piecesOf_pairwise (text : List Char) :
    ∀ es : List Entity, es.Pairwise (fun a b => a.token ≠ b.token) →
      (piecesOf text es).Pairwise (fun a b => a.tok ≠ b.tok) := by
  intro es
  induction es with
  | nil =>
    intro _
    simp [piecesOf]
  | cons e rest ih =>
    intro hp
    obtain ⟨hhead, htail⟩ := List.pairwise_cons.mp hp
    rw [piecesOf_cons]
    refine List.pairwise_cons.mpr ⟨?_, ih htail⟩
    intro q hq
    obtain ⟨e', he', hqe⟩ := piecesOf_mem text hq
    show e.token ≠ q.tok
    rw [hqe]
    exact hhead e' he'

theorem piecesOf_decomp (text : List Char) :
    ∀ (es : List Entity) (e : Entity), e ∈ es →
      ∃ L1 p L2, piecesOf text es = L1 ++ p :: L2 ∧ p.tok = e.token ∧
        p.rep = false := by
  intro es
  induction es with
  | nil =>
    intro e he
    simp at he
  | cons e0 rest ih =>
    intro e he
    rcases List.mem_cons.mp he with rfl | he
    · exact ⟨[], _, piecesOf text rest, piecesOf_cons text e rest, rfl, rfl⟩
    · obtain ⟨L1, p, L2, hdec, h1, h2⟩ := ih e he
      refine ⟨mkPiece e0.token (pySlice text e0.start e0.stop)
        (pySlice text e0.stop (headBound text rest)) :: L1, p, L2, ?_, h1, h2⟩
      rw [piecesOf_cons, hdec]
      rfl

/-- The token-mapping record for one entity. -/
def mkMapping (e : Entity) : TokenMapping :=
  { token := e.token, value := pyStrip e.value, type := e.type,
    start := e.start, stop := e.stop }

theorem mappingsOf_all (es : List Entity)
    (h : ∀ e ∈ es, pyStrip e.value ≠ []) :
    mappingsOf es = es.map mkMapping := by
  unfold mappingsOf mkMapping
  congr 1
  rw [List.filter_eq_self]
  intro e he
  simpa using h e he

/-! The template parser is the identity on backslash-free values, and the
substitution loop is then the literal fold. -/

theorem parseTemplateCore_noBS (tok : List Char) :
    ∀ (fuel : Nat) (v : List Char), v.length ≤ fuel →
      (∀ c ∈ v, c ≠ bslash) → parseTemplateCore tok fuel v = some v := by
  intro fuel
  induction fuel with
  | zero =>
    intro v hl _
    cases v with
    | nil => rfl
    | cons c rest => simp at hl
  | succ f ih =>
    intro v hl hbs
    cases v with
    | nil => rfl
    | cons c rest =>
      have hc : c ≠ bslash := hbs c (List.mem_cons_self c rest)
      have hrest := ih rest (by simp at hl; omega)
        (fun x hx => hbs x (List.mem_cons_of_mem c hx))
      simp only [parseTemplateCore]
      rw [if_pos hc, hrest]
      rfl

theorem parseTemplate_noBS (tok v : List Char)
    (h : ∀ c ∈ v, c ≠ bslash) : parseTemplate tok v = some v :=
  parseTemplateCore_noBS tok v.length v (le_refl _) h

theorem subAll_ok :
    ∀ (ms : List TokenMapping),
      (∀ mp ∈ ms, parseTemplate mp.token mp.value = some mp.value) →
      ∀ s, subAll ms s =
        .ok (ms.foldl (fun s mp => replaceAll mp.token mp.value s) s) := by
  intro ms
  induction ms with
  | nil =>
    intro _ s
    rfl
  | cons mp rest ih =>
    intro h s
    have hmp := h mp (List.mem_cons_self mp rest)
    show (match parseTemplate mp.token mp.value with
      | none => Except.error RestoreErr.reError
      | some rv => subAll rest (replaceAll mp.token rv s)) = _
    rw [hmp]
    show subAll rest (replaceAll mp.token mp.value s) =
      Except.ok (List.foldl (fun s mp => replaceAll mp.token mp.value s) s
        (mp :: rest))
    rw [ih (fun x hx => h x (List.mem_cons_of_mem mp hx))]
    rfl

/-- Core round-trip identity: for a sorted non-overlapping in-bounds final
entity list over a delimiter-free, backslash-free text, with stripped values
equal to the exact span text, delimited pairwise-distinct tokens and nonempty
stripped values, restoring the built redacted text with the built mappings
returns the original text. -/
theorem roundtrip_core (text : List Char) (es : List Entity)
    (hchain : List.Chain' (fun a b => a.stop ≤ b.start) es)
    (hspan : ∀ e ∈ es, e.start ≤ e.stop ∧ e.stop ≤ text.length)
    (hval : ∀ e ∈ es, pyStrip e.value = pySlice text e.start e.stop)
    (hvne : ∀ e ∈ es, pyStrip e.value ≠ [])
    (hct : Clean text)
    (hnb : ∀ c ∈ text, c ≠ bslash)
    (htok : ∀ e ∈ es, IsTok e.token)
    (hdist : es.Pairwise (fun a b => a.token ≠ b.token)) :
    restoreText (buildRedacted text es) (mappingsOf es) = .ok text := by
  have hbuild : buildRedacted text es =
      assemble (pySlice text 0 (headBound text es)) (piecesOf text es) :=
    buildRedacted_eq_assemble text es 0
  have hsub : ∀ mp ∈ mappingsOf es,
      isSubstr mp.token (buildRedacted text es) = true := by
    rw [mappingsOf_all es hvne]
    intro mp hmp
    rw [List.mem_map] at hmp
    obtain ⟨e, he, rfl⟩ := hmp
    obtain ⟨L1, p, L2, hdec, hptok, hprep⟩ := piecesOf_decomp text es e he
    have hocc := isSubstr_assemble hprep L1 L2
      (pySlice text 0 (headBound text es))
    rw [← hdec, ← hbuild, hptok] at hocc
    exact hocc
  have hfind : (mappingsOf es).find?
      (fun mp => !isSubstr mp.token (buildRedacted text es)) = none := by
    rw [List.find?_eq_none]
    intro mp hmp
    simp [hsub mp hmp]
  unfold restoreText
  rw [hfind]
  show subAll (pySort lenGe (mappingsOf es)) (buildRedacted text es) =
    Except.ok text
  have hid : ∀ mp ∈ pySort lenGe (mappingsOf es),
      parseTemplate mp.token mp.value = some mp.value := by
    intro mp hmp
    have hmp2 : mp ∈ mappingsOf es :=
      (pySort_perm lenGe (mappingsOf es)).mem_iff.mp hmp
    apply parseTemplate_noBS
    intro c hc
    rw [mappingsOf_all es hvne] at hmp2
    obtain ⟨e, he, heq⟩ := List.mem_map.mp hmp2
    rw [← heq] at hc
    have hcv : c ∈ pyStrip e.value := hc
    rw [hval e he] at hcv
    exact hnb c (pySlice_subset text e.start e.stop hcv)
  rw [subAll_ok _ hid]
  refine congrArg Except.ok ?_
  have hfold : List.foldl (fun s mp => replaceAll mp.token mp.value s)
      (buildRedacted text es) (pySort lenGe (mappingsOf es)) =
      List.foldl (fun s q => replaceAll q.1 q.2 s) (buildRedacted text es)
        ((pySort lenGe (mappingsOf es)).map
          (fun mp => (mp.token, mp.value))) := by
    rw [List.foldl_map]
  rw [hfold, hbuild]
  have hperm : List.Perm
      ((pySort lenGe (mappingsOf es)).map (fun mp => (mp.token, mp.value)))
      (pendToks (piecesOf text es)) := by
    rw [piecesOf_pend]
    have h1 := (pySort_perm lenGe (mappingsOf es)).map
      (fun mp => (mp.token, mp.value))
    refine h1.trans ?_
    rw [mappingsOf_all es hvne, List.map_map]
    have heq : es.map ((fun (mp : TokenMapping) => (mp.token, mp.value)) ∘
        mkMapping) = es.map (fun e => (e.token, pySlice text e.start e.stop)) := by
      apply List.map_congr_left
      intro e he
      show (e.token, pyStrip e.value) = (e.token, pySlice text e.start e.stop)
      rw [hval e he]
    rw [heq]
  rw [fold_replace _ (piecesOf text es) _ (clean_slice hct 0 _)
    (piecesOf_good text hct es htok) (piecesOf_pairwise text es hdist) hperm]
  rw [assemble_setRep_eq_drop text es 0 (Nat.zero_le _) hchain hspan]
  rw [List.drop_zero]

theorem occCount_core (text : List Char) (es : List Entity)
    (hct : Clean text) (htok : ∀ e ∈ es, IsTok e.token)
    (hdist : es.Pairwise (fun a b => a.token ≠ b.token)) :
    ∀ e ∈ es, occCount e.token (buildRedacted text es) = 1 := by
  intro e he
  obtain ⟨L1, p, L2, hdec, hptok, hprep⟩ := piecesOf_decomp text es e he
  have hgood := piecesOf_good text hct es htok
  have hpair := piecesOf_pairwise text es hdist
  rw [hdec] at hgood hpair
  rw [List.pairwise_append] at hpair
  obtain ⟨hp1, hp2, hcross⟩ := hpair
  have hpl2 := List.pairwise_cons.mp hp2
  have hno1 : ∀ q ∈ L1, q.tok ≠ p.tok := fun q hq => hcross q hq p (by simp)
  have hno2 : ∀ q ∈ L2, q.tok ≠ p.tok := fun q hq he2 => hpl2.1 q hq he2.symm
  have hptok2 : IsTok p.tok := (hgood p (by simp)).1
  have h1 := occCount_assemble_one hptok2
    (clean_slice hct 0 (headBound text es)) hgood hprep hno1 hno2
  have hbuild : buildRedacted text es =
      assemble (pySlice text 0 (headBound text es)) (piecesOf text es) :=
    buildRedacted_eq_assemble text es 0
  rw [hbuild, hdec, ← hptok]
  exact h1

/-! Transfer of entity-list facts through token assignment. -/

theorem assignTokens_chain (m : TypeMap) (es : List Entity) (ctr : Ctr)
    (hchain : List.Chain' (fun a b => a.stop ≤ b.start) es) :
    List.Chain' (fun a b => a.stop ≤ b.start) (assignTokens m ctr es).1 := by
  rw [List.chain'_iff_get] at hchain ⊢
  intro i hi
  have hlen := assignTokens_length m es ctr
  have hi1 : i < es.length := by omega
  have hi2 : i + 1 < es.length := by omega
  have g1 := assignTokens_get m es ctr i hi1
  have g2 := assignTokens_get m es ctr (i + 1) hi2
  rw [g1, g2]
  exact hchain i (by omega)

theorem assignTokens_isTok (m : TypeMap) (es : List Entity) (ctr : Ctr)
    (hdisp : ∀ e ∈ es, Clean (displayOf m e.type)) :
    ∀ x ∈ (assignTokens m ctr es).1, IsTok x.token := by
  intro x hx
  obtain ⟨e, he, k, -, rfl⟩ := assignTokens_mem m es ctr x hx
  exact isTok_mkTok (hdisp e he) k

theorem assignTokens_span (m : TypeMap) (es : List Entity) (ctr : Ctr)
    {P : Nat → Nat → List Char → List Char → Prop}
    (h : ∀ e ∈ es, P e.start e.stop e.value e.type) :
    ∀ x ∈ (assignTokens m ctr es).1, P x.start x.stop x.value x.type := by
  intro x hx
  obtain ⟨e, he, k, -, rfl⟩ := assignTokens_mem m es ctr x hx
  exact h e he

/-- C1 (amended, core statement): the round trip restore(redact) = identity
holds for every final entity list that is sorted and non-overlapping with
in-bounds spans, whose stripped values equal the exact span text and are
nonempty, over a text free of the token delimiter characters and of the
backslash (which re.sub would escape-process inside the stored values), with
display categories free of the delimiters; tokens are the ones redact_text
assigns with the fresh request counter. -/
theorem c1_roundtrip_amended (m : TypeMap) (text : List Char)
    (es : List Entity)
    (hchain : List.Chain' (fun a b => a.stop ≤ b.start) es)
    (hspan : ∀ e ∈ es, e.start ≤ e.stop ∧ e.stop ≤ text.length)
    (hval : ∀ e ∈ es, pyStrip e.value = pySlice text e.start e.stop)
    (hvne : ∀ e ∈ es, pyStrip e.value ≠ [])
    (hct : Clean text)
    (hnb : ∀ c ∈ text, c ≠ bslash)
    (hdisp : ∀ e ∈ es, Clean (displayOf m e.type)) :
    restoreText (buildRedacted text (assignTokens m [] es).1)
      (mappingsOf (assignTokens m [] es).1) = .ok text := by
  apply roundtrip_core
  · exact assignTokens_chain m es [] hchain
  · exact assignTokens_span m es []
      (P := fun s p _ _ => s ≤ p ∧ p ≤ text.length) hspan
  · exact assignTokens_span m es []
      (P := fun s p v _ => pyStrip v = pySlice text s p) hval
  · exact assignTokens_span m es []
      (P := fun _ _ v _ => pyStrip v ≠ []) hvne
  · exact hct
  · exact hnb
  · exact assignTokens_isTok m es [] hdisp
  · exact assignTokens_token_distinct m es []

/-! Concrete detector and tokenizer instances used by the counterexamples. -/

/-- Tokenizer offsets: one token covering the three characters. -/
def cxOffs : List (Nat × Nat) := [(0, 3)]

/-- Detector labeling the full three-character span, including the trailing
space, as a NAME. -/
def cxDet : List Char → List LabelUnit :=
  fun _ => [⟨0, 3, some "NAME".toList, 1⟩]

/-- C1 (counterexample): the round-trip identity fails as stated. For the
text consisting of two letters and a trailing space, with the detector
labeling the whole text, redact_text stores the stripped value, so restore
returns the stripped text, not the original. -/
theorem c1_roundtrip_counterexample :
    restoreText (redactText cxOffs cxDet [] "ab ".toList 1).1
      (redactText cxOffs cxDet [] "ab ".toList 1).2 = .ok "ab".toList ∧
    "ab".toList ≠ "ab ".toList := by
  constructor
  · rfl
  · decide

/-- The single entity of the C1 witness text. -/
def wEnt : Entity :=
  { value := "Bob".toList, type := "GIVENNAME".toList, start := 5, stop := 8,
    score := 1 }

/-- C1 (witness): the amended round trip holds at a concrete text. -/
theorem c1_roundtrip_amended_witness :
    Clean "Call Bob now.".toList ∧
    restoreText
      (buildRedacted "Call Bob now.".toList (assignTokens [] [] [wEnt]).1)
      (mappingsOf (assignTokens [] [] [wEnt]).1) =
      .ok "Call Bob now.".toList := by
  refine ⟨by decide, ?_⟩
  exact c1_roundtrip_amended [] "Call Bob now.".toList [wEnt]
    (by simp) (by decide) (by decide) (by decide) (by decide) (by decide)
    (by decide)

/-- Tokenizer offsets for the C5 failing input. -/
def c5Offs : List (Nat × Nat) := [(0, 10)]

/-- Detector finding only the first Bob of the C5 failing input. -/
def c5Det : List Char → List LabelUnit :=
  fun _ => [⟨0, 3, some "GIVENNAME".toList, 1⟩]

/-- C5 (code evaluated at the failing input): redact_text performs only
statistical detection; the second literal occurrence of Bob is left in the
redacted text untouched, showing that neither the pattern detectors nor the
consistency pass run inside redact_text. -/
theorem c5_no_consistency_in_redact :
    redactText c5Offs c5Det [] "Bob xx Bob".toList 1 =
      ("<PII_GIVENNAME_1> xx Bob".toList,
        [⟨"<PII_GIVENNAME_1>".toList, "Bob".toList, "GIVENNAME".toList, 0, 3⟩]) ∧
    isSubstr "Bob".toList "<PII_GIVENNAME_1> xx Bob".toList = true := by
  constructor
  · rfl
  · decide

/-- Tokenizer offsets for the C6 failing input. -/
def c6Offs : List (Nat × Nat) := [(0, 1)]

/-- Detector labeling the single space character of the C6 failing input. -/
def c6Det : List Char → List LabelUnit :=
  fun _ => [⟨0, 1, some "USERNAME".toList, 1⟩]

/-- C6 (code evaluated at the failing input): a whitespace-only entity still
receives a token and its span is substituted into the redacted text, while
the mapping list is empty, so the token in the redacted text has no mapping. -/
theorem c6_whitespace_entity_substituted :
    redactText c6Offs c6Det [] " ".toList 1 =
      ("<PII_USERNAME_1>".toList, []) ∧
    "<PII_USERNAME_1>".toList ≠ (" ".toList : List Char) := by
  constructor
  · rfl
  · decide

/-- Tokenizer offsets for the C7 counterexample input. -/
def c7Offs : List (Nat × Nat) := [(0, 11)]

/-- Detector labeling the final letter of the C7 counterexample input. -/
def c7Det : List Char → List LabelUnit :=
  fun _ => [⟨10, 11, some "X".toList, 1⟩]

/-- The C7 counterexample text: it already contains the literal token that
the request then generates. -/
def c7Text : List Char := "<PII_X_1> a".toList

/-- C7 (counterexample): a generated token can appear more than once in the
redacted text when the original text already contains the token literally. -/
theorem c7_token_twice :
    occCount "<PII_X_1>".toList (redactText c7Offs c7Det [] c7Text 1).1 = 2 ∧
    "<PII_X_1>".toList ∈
      ((redactText c7Offs c7Det [] c7Text 1).2.map TokenMapping.token) := by
  constructor
  · rfl
  · decide

/-- C7 (amended): tokens have the literal shape of mkTok with a 1-based
per-display-category sequence number counted in iteration order, all tokens
of one request are pairwise distinct, and each appears exactly once in the
redacted text provided the text and the display categories are free of the
token delimiter characters. -/
theorem c7_token_shape_amended (m : TypeMap) (text : List Char)
    (es : List Entity) (hct : Clean text)
    (hdisp : ∀ e ∈ es, Clean (displayOf m e.type)) :
    (∀ (i : Nat) (h : i < es.length),
      ((assignTokens m [] es).1.get
          ⟨i, by rw [assignTokens_length]; exact h⟩).token =
        mkTok (displayOf m (es.get ⟨i, h⟩).type)
          (dispCount m (displayOf m (es.get ⟨i, h⟩).type) (es.take i) + 1)) ∧
    (assignTokens m [] es).1.Pairwise (fun a b => a.token ≠ b.token) ∧
    (∀ x ∈ (assignTokens m [] es).1,
      occCount x.token (buildRedacted text (assignTokens m [] es).1) = 1) := by
  refine ⟨?_, assignTokens_token_distinct m es [], ?_⟩
  · intro i h
    have hg := assignTokens_get m es [] i h
    rw [hg]
    show mkTok (displayOf m (es.get ⟨i, h⟩).type)
      (ctrGet [] (displayOf m (es.get ⟨i, h⟩).type) +
        dispCount m (displayOf m (es.get ⟨i, h⟩).type) (es.take i) + 1) = _
    rw [ctrGet_nil, Nat.zero_add]
  · intro x hx
    exact occCount_core text _ hct (assignTokens_isTok m es [] hdisp)
      (assignTokens_token_distinct m es []) x hx

/-- C7 (witness): the amended statement applied at a concrete request. -/
theorem c7_token_shape_amended_witness :
    Clean "Call Bob now.".toList ∧
    (assignTokens [] [] [wEnt]).1.Pairwise (fun a b => a.token ≠ b.token) := by
  refine ⟨by decide, ?_⟩
  exact (c7_token_shape_amended [] "Call Bob now.".toList [wEnt]
    (by decide) (by decide)).2.1

/-- C8 (counterexample): two adjacent same-category units with scores one and
two are concatenated into an entity whose confidence is the first score, not
the maximum. -/
theorem c8_confidence_counterexample :
    detectPiiInChunk [⟨0, 1, some "NAME".toList, 1⟩,
        ⟨1, 2, some "NAME".toList, 2⟩] "ab".toList 0 =
      [⟨"ab".toList, "NAME".toList, 0, 2, 1, []⟩] ∧
    max (1 : ℚ) 2 = 2 ∧ (1 : ℚ) ≠ 2 := by
  refine ⟨rfl, by decide, by decide⟩

/-! The single-run behaviour of the chunk scanner. -/

/-- The end of the last unit of a run, or the given position for an empty
run. -/
def lastStopFrom (b : Nat) : List LabelUnit → Nat
  | [] => b
  | u :: us => lastStopFrom u.ustop us

/-- An entity literal. -/
def mkEnt (vl ty : List Char) (a b : Nat) (sc : ℚ) (tk : List Char) : Entity :=
  { value := vl, type := ty, start := a, stop := b, score := sc, token := tk }

/-- The extension of the in-progress entity by one unit, as performed by the
continuation branch of the chunk scanner. -/
def extEnt (text : List Char) (off : Nat) (c : Entity) (u : LabelUnit) :
    Entity :=
  { c with stop := u.ustop + off,
           value := c.value ++
             (if c.stop < u.ustart + off then
               pySlice text (c.stop - off) u.ustart else []) ++
             pySlice text u.ustart u.ustop }

theorem chunkLoop_nil (text : List Char) (off : Nat) (c : Entity) :
    chunkLoop text off (some c) [] = [closeEnt c] := rfl

theorem chunkLoop_ext (text : List Char) (off : Nat) (c : Entity)
    (u : LabelUnit) (us : List LabelUnit) (l : List Char)
    (hne : ¬ u.ustart = u.ustop) (hl : u.lab = some l)
    (hty : c.type = replaceAll ['I', '-'] [] l)
    (hadj : u.ustart + off ≤ c.stop + 1) :
    chunkLoop text off (some c) (u :: us) =
      chunkLoop text off (some (extEnt text off c u)) us := by
  conv_lhs => rw [chunkLoop]
  rw [if_neg hne, hl]
  show (if c.type = replaceAll ['I', '-'] [] l ∧
      u.ustart + off ≤ c.stop + 1 then _ else _) = _
  rw [if_pos ⟨hty, hadj⟩]
  rfl

theorem chunkLoop_open (text : List Char) (off : Nat) (u : LabelUnit)
    (us : List LabelUnit) (l : List Char)
    (hne : ¬ u.ustart = u.ustop) (hl : u.lab = some l) :
    chunkLoop text off none (u :: us) =
      chunkLoop text off
        (some (newEnt text off u (replaceAll ['I', '-'] [] l))) us := by
  conv_lhs => rw [chunkLoop]
  rw [if_neg hne, hl]

/-- The adjacency relation of the claim: contiguous or separated by a single
whitespace character. -/
def adjWs (_text : List Char) (a b : LabelUnit) : Prop :=
  a.ustop ≤ b.ustart ∧ b.ustart ≤ a.ustop + 1

theorem chunkLoop_run (text : List Char) (off : Nat) (ty : List Char) :
    ∀ (us : List LabelUnit) (a b : Nat) (sc : ℚ) (tk : List Char),
      a ≤ b → b ≤ text.length →
      (∀ u ∈ us, (∃ l, u.lab = some l ∧ replaceAll ['I', '-'] [] l = ty) ∧
        u.ustart < u.ustop ∧ u.ustop ≤ text.length) →
      (∀ u0, us.head? = some u0 → b ≤ u0.ustart ∧ u0.ustart ≤ b + 1) →
      List.Chain' (adjWs text) us →
      chunkLoop text off
        (some (mkEnt (pySlice text a b) ty (a + off) (b + off) sc tk)) us =
        [mkEnt (pyStrip (pySlice text a (lastStopFrom b us))) ty (a + off)
          (lastStopFrom b us + off) sc tk] := by
  intro us
  induction us with
  | nil =>
    intro a b sc tk _ _ _ _ _
    rw [chunkLoop_nil]
    rfl
  | cons u rest ih =>
    intro a b sc tk hab hbl hus hhead hchain
    obtain ⟨⟨l, hl, hlty⟩, huse, hule⟩ := hus u (by simp)
    obtain ⟨hbu, hub⟩ := hhead u rfl
    rw [chunkLoop_ext text off _ u rest l (by omega) hl (by rw [hlty]; rfl)
      (by show u.ustart + off ≤ b + off + 1
          omega)]
    have hext : extEnt text off
        (mkEnt (pySlice text a b) ty (a + off) (b + off) sc tk) u =
        mkEnt (pySlice text a u.ustop) ty (a + off) (u.ustop + off) sc tk := by
      show mkEnt (pySlice text a b ++
          (if b + off < u.ustart + off then
            pySlice text (b + off - off) u.ustart else []) ++
          pySlice text u.ustart u.ustop) ty (a + off) (u.ustop + off) sc tk =
        mkEnt (pySlice text a u.ustop) ty (a + off) (u.ustop + off) sc tk
      congr 1
      by_cases hgap : b < u.ustart
      · rw [if_pos (show b + off < u.ustart + off from by omega)]
        rw [show b + off - off = b from by omega]
        rw [pySlice_glue text hab (by omega),
          pySlice_glue text (by omega) (le_of_lt huse)]
      · rw [if_neg (show ¬ b + off < u.ustart + off from by omega),
          List.append_nil]
        rw [show b = u.ustart from by omega]
        rw [pySlice_glue text (by omega) (le_of_lt huse)]
    rw [hext]
    have hrun := ih a u.ustop sc tk (by omega) hule
      (fun x hx => hus x (by simp [hx]))
      (fun u0 h0 => by
        cases rest with
        | nil => simp at h0
        | cons r rs =>
          have hadj := (List.chain'_cons.mp hchain).1
          simp only [List.head?] at h0
          injection h0 with h0
          subst h0
          exact ⟨hadj.1, hadj.2⟩)
      (List.Chain'.tail hchain)
    rw [hrun]
    rfl

/-- C8 (amended): a chunk whose labeled units all carry the same category and
are contiguous or separated by a single-character gap (the scanner only tests
start <= previous end + 1 and never inspects the gap character) yields exactly
one entity; its value is the stripped exact text of the covered span with
every interior gap character preserved, its span covers the run, and its
confidence is the first unit's confidence (the code never maximizes over the
run). -/
theorem c8_run_amended (text : List Char) (off : Nat) (ty : List Char)
    (u0 : LabelUnit) (us : List LabelUnit)
    (hty : ∀ u ∈ u0 :: us, ∃ l, u.lab = some l ∧
      replaceAll ['I', '-'] [] l = ty)
    (hspan : ∀ u ∈ u0 :: us, u.ustart < u.ustop ∧ u.ustop ≤ text.length)
    (hchain : List.Chain' (adjWs text) (u0 :: us)) :
    detectPiiInChunk (u0 :: us) text off =
      [mkEnt (pyStrip (pySlice text u0.ustart (lastStopFrom u0.ustop us))) ty
        (u0.ustart + off) (lastStopFrom u0.ustop us + off) u0.uscore []] := by
  obtain ⟨l0, hl0, hl0ty⟩ := hty u0 (by simp)
  obtain ⟨h0se, h0le⟩ := hspan u0 (by simp)
  unfold detectPiiInChunk
  rw [chunkLoop_open text off u0 us l0 (by omega) hl0, hl0ty]
  have hopen : newEnt text off u0 ty =
      mkEnt (pySlice text u0.ustart u0.ustop) ty (u0.ustart + off)
        (u0.ustop + off) u0.uscore [] := rfl
  rw [hopen]
  exact chunkLoop_run text off ty us u0.ustart u0.ustop u0.uscore []
    (le_of_lt h0se) h0le
    (fun x hx => ⟨hty x (by simp [hx]), hspan x (by simp [hx])⟩)
    (fun x hx => by
      cases us with
      | nil => simp at hx
      | cons r rs =>
        have hadj := (List.chain'_cons.mp hchain).1
        simp only [List.head?] at hx
        injection hx with hx
        subst hx
        exact ⟨hadj.1, hadj.2⟩)
    (List.Chain'.tail hchain)

/-- C8 (witness): the amended run statement at a concrete chunk with a
single-character non-whitespace gap between two units. -/
theorem c8_run_amended_witness :
    detectPiiInChunk [⟨0, 3, some "NAME".toList, 1⟩,
        ⟨4, 7, some "NAME".toList, 2⟩] "BobXDoe".toList 0 =
      [mkEnt "BobXDoe".toList "NAME".toList 0 7 1 []] := by
  have h := c8_run_amended "BobXDoe".toList 0 "NAME".toList
    ⟨0, 3, some "NAME".toList, 1⟩ [⟨4, 7, some "NAME".toList, 2⟩]
    (by intro u hu
        rcases List.mem_cons.mp hu with rfl | hu
        · exact ⟨"NAME".toList, rfl, by decide⟩
        · rcases List.mem_cons.mp hu with rfl | hu
          · exact ⟨"NAME".toList, rfl, by decide⟩
          · simp at hu)
    (by decide)
    (by refine List.chain'_cons.mpr ⟨?_, by simp⟩
        exact ⟨by decide, by decide⟩)
  rw [h]
  rfl

/-! Invariants of the merge loop of EnhancedPIIRedactor._merge_entities. -/

theorem mergeLe_trans : ∀ x y z : Entity,
    mergeLe x y = true → mergeLe y z = true → mergeLe x z = true := by
  intro x y z hxy hyz
  simp only [mergeLe, Bool.or_eq_true, Bool.and_eq_true,
    decide_eq_true_eq] at hxy hyz ⊢
  rcases hxy with h1 | ⟨h1, h2⟩ <;> rcases hyz with h3 | ⟨h3, h4⟩
  · exact .inl (lt_trans h1 h3)
  · exact .inl (by omega)
  · exact .inl (by omega)
  · exact .inr ⟨by omega, le_trans h4 h2⟩

theorem mergeLe_total : ∀ x y : Entity,
    mergeLe x y = true ∨ mergeLe y x = true := by
  intro x y
  simp only [mergeLe, Bool.or_eq_true, Bool.and_eq_true, decide_eq_true_eq]
  rcases Nat.lt_trichotomy x.start y.start with h | h | h
  · exact .inl (.inl h)
  · rcases le_total x.score y.score with h2 | h2
    · exact .inr (.inr ⟨h.symm, h2⟩)
    · exact .inl (.inr ⟨h, h2⟩)
  · exact .inr (.inl h)

theorem mergeInsert_shape (text : List Char) (e : Entity) :
    ∀ (M : List Entity), ∀ y ∈ mergeInsert text e M,
      (y.start = e.start ∧ y.stop = e.stop) ∨ y ∈ M ∨
      (∃ z ∈ M, y.start = min e.start z.start ∧ y.stop = max e.stop z.stop) := by
  intro M
  induction M with
  | nil =>
    intro y hy
    rcases List.mem_cons.mp hy with rfl | hy
    · exact .inl ⟨rfl, rfl⟩
    · simp at hy
  | cons x xs ih =>
    intro y hy
    unfold mergeInsert at hy
    by_cases hov : ovB e x
    · rw [if_pos hov] at hy
      rcases List.mem_cons.mp hy with rfl | hy
      · unfold mergeResolve
        by_cases hsc : x.score < e.score
        · rw [if_pos hsc]
          exact .inl ⟨rfl, rfl⟩
        · rw [if_neg hsc]
          by_cases hty : e.type = x.type
          · rw [if_pos hty]
            exact .inr (.inr ⟨x, by simp, rfl, rfl⟩)
          · rw [if_neg hty]
            exact .inr (.inl (by simp))
      · exact .inr (.inl (by simp [hy]))
    · rw [if_neg hov] at hy
      rcases List.mem_cons.mp hy with rfl | hy
      · exact .inr (.inl (by simp))
      · rcases ih y hy with h | h | ⟨z, hz, h⟩
        · exact .inl h
        · exact .inr (.inl (by simp [h]))
        · exact .inr (.inr ⟨z, by simp [hz], h⟩)

theorem mergeInsert_inv (text : List Char) (e : Entity) :
    ∀ (M : List Entity),
      M.Pairwise (fun a b => a.start ≤ b.start) →
      M.Pairwise (fun a b => a.stop ≤ b.start ∨ b.stop ≤ a.start) →
      (∀ x ∈ M, x.start ≤ e.start) → (∀ x ∈ M, x.start < x.stop) →
      e.start < e.stop →
      (mergeInsert text e M).Pairwise (fun a b => a.start ≤ b.start) ∧
      (mergeInsert text e M).Pairwise
        (fun a b => a.stop ≤ b.start ∨ b.stop ≤ a.start) ∧
      (∀ y ∈ mergeInsert text e M, y.start ≤ e.start ∧ y.start < y.stop) := by
  intro M
  induction M with
  | nil =>
    intro _ _ _ _ hee
    refine ⟨by simp [mergeInsert], by simp [mergeInsert], ?_⟩
    intro y hy
    rcases List.mem_cons.mp hy with rfl | hy
    · exact ⟨le_rfl, hee⟩
    · simp at hy
  | cons x xs ih =>
    intro hsle hnov hst hne hee
    obtain ⟨hx1, hsle'⟩ := List.pairwise_cons.mp hsle
    obtain ⟨hx2, hnov'⟩ := List.pairwise_cons.mp hnov
    have hxe : x.start ≤ e.start := hst x (by simp)
    have hxx : x.start < x.stop := hne x (by simp)
    have hstop_le : ∀ z ∈ xs, x.stop ≤ z.start := by
      intro z hz
      rcases hx2 z hz with h | h
      · exact h
      · exact absurd (lt_of_le_of_lt (le_trans h (hx1 z hz)) (hne z (by simp [hz])))
          (lt_irrefl _)
    unfold mergeInsert
    by_cases hov : ovB e x
    · rw [if_pos hov]
      have hxs : xs = [] := by
        cases xs with
        | nil => rfl
        | cons z zs =>
          exfalso
          have h1 : x.stop ≤ z.start := hstop_le z (by simp)
          have h2 : z.start ≤ e.start := hst z (by simp)
          have h3 : e.start < x.stop := hov.1
          omega
      subst hxs
      refine ⟨by simp, by simp, ?_⟩
      intro y hy
      rcases List.mem_cons.mp hy with rfl | hy
      · unfold mergeResolve
        by_cases hsc : x.score < e.score
        · rw [if_pos hsc]
          exact ⟨le_rfl, hee⟩
        · rw [if_neg hsc]
          by_cases hty : e.type = x.type
          · rw [if_pos hty]
            refine ⟨?_, ?_⟩
            · show min e.start x.start ≤ e.start
              exact min_le_left _ _
            · show min e.start x.start < max e.stop x.stop
              have := le_max_left e.stop x.stop
              have := min_le_left e.start x.start
              omega
          · rw [if_neg hty]
            exact ⟨hxe, hxx⟩
      · simp at hy
    · rw [if_neg hov]
      have hnoveb : x.stop ≤ e.start ∨ e.stop ≤ x.start := by
        unfold ovB at hov
        omega
      have hxstop : x.stop ≤ e.start := by
        rcases hnoveb with h | h
        · exact h
        · omega
      obtain ⟨ih1, ih2, ih3⟩ := ih hsle' hnov'
        (fun z hz => hst z (by simp [hz])) (fun z hz => hne z (by simp [hz])) hee
      refine ⟨List.pairwise_cons.mpr ⟨?_, ih1⟩,
        List.pairwise_cons.mpr ⟨?_, ih2⟩, ?_⟩
      · intro y hy
        rcases mergeInsert_shape text e xs y hy with ⟨h1, -⟩ | h1 | ⟨z, hz, h1, -⟩
        · rw [h1]
          exact hxe
        · exact hx1 y h1
        · rw [h1]
          exact le_min hxe (hx1 z hz)
      · intro y hy
        rcases mergeInsert_shape text e xs y hy with ⟨h1, -⟩ | h1 | ⟨z, hz, h1, -⟩
        · rw [h1]
          exact .inl hxstop
        · exact hx2 y h1
        · rw [h1]
          exact .inl (le_min hxstop (hstop_le z hz))
      · intro y hy
        rcases List.mem_cons.mp hy with rfl | hy
        · exact ⟨hxe, hxx⟩
        · exact ih3 y hy

theorem mergeFold_inv (text : List Char) :
    ∀ (es : List Entity) (M : List Entity),
      es.Pairwise (fun a b => a.start ≤ b.start) →
      (∀ x ∈ es, x.start < x.stop) →
      M.Pairwise (fun a b => a.start ≤ b.start) →
      M.Pairwise (fun a b => a.stop ≤ b.start ∨ b.stop ≤ a.start) →
      (∀ x ∈ M, ∀ y ∈ es, x.start ≤ y.start) → (∀ x ∈ M, x.start < x.stop) →
      (es.foldl (fun acc e => mergeInsert text e acc) M).Pairwise
        (fun a b => a.start ≤ b.start) ∧
      (es.foldl (fun acc e => mergeInsert text e acc) M).Pairwise
        (fun a b => a.stop ≤ b.start ∨ b.stop ≤ a.start) := by
  intro es
  induction es with
  | nil =>
    intro M _ _ hM1 hM2 _ _
    exact ⟨hM1, hM2⟩
  | cons e rest ih =>
    intro M hes hene hM1 hM2 hcross hMne
    obtain ⟨hhd, hes'⟩ := List.pairwise_cons.mp hes
    obtain ⟨p1, p2, p3⟩ := mergeInsert_inv text e M hM1 hM2
      (fun x hx => hcross x hx e (by simp)) hMne (hene e (by simp))
    rw [List.foldl_cons]
    exact ih (mergeInsert text e M) hes' (fun x hx => hene x (by simp [hx]))
      p1 p2
      (fun x hx y hy => le_trans (p3 x hx).1 (hhd y hy))
      (fun x hx => (p3 x hx).2)

/-- C2: for every input entity list with nonempty spans (the data-model
invariant start less than end) and every text, the output of the merger
_merge_entities is pairwise non-overlapping and sorted ascending by start. -/
theorem c2_merge_nonoverlap_sorted (text : List Char) (es : List Entity)
    (h : ∀ e ∈ es, e.start < e.stop) :
    (mergeEntities text es).Pairwise
      (fun a b => a.stop ≤ b.start ∨ b.stop ≤ a.start) ∧
    (mergeEntities text es).Pairwise (fun a b => a.start ≤ b.start) := by
  unfold mergeEntities
  have hsorted := pySort_pairwise mergeLe_trans mergeLe_total es
  have hstarts : (pySort mergeLe es).Pairwise
      (fun a b => a.start ≤ b.start) := by
    refine hsorted.imp ?_
    intro a b hab
    simp only [mergeLe, Bool.or_eq_true, Bool.and_eq_true,
      decide_eq_true_eq] at hab
    rcases hab with h1 | ⟨h1, -⟩
    · omega
    · omega
  have hmem : ∀ x ∈ pySort mergeLe es, x.start < x.stop :=
    fun x hx => h x ((pySort_perm mergeLe es).mem_iff.mp hx)
  have := mergeFold_inv text (pySort mergeLe es) [] hstarts hmem
    (by simp) (by simp) (by simp) (by simp)
  exact ⟨this.2, this.1⟩

/-- C2 (witness): the merge invariant at a concrete pair of entities. -/
theorem c2_merge_nonoverlap_sorted_witness :
    (∀ e ∈ [mkEnt "abc".toList "T1".toList 0 3 1 [],
        mkEnt "abcde".toList "T2".toList 2 5 2 []], e.start < e.stop) ∧
    (mergeEntities "abcdefghij".toList
        [mkEnt "abc".toList "T1".toList 0 3 1 [],
         mkEnt "abcde".toList "T2".toList 2 5 2 []]).Pairwise
      (fun a b => a.stop ≤ b.start ∨ b.stop ≤ a.start) := by
  refine ⟨by decide, ?_⟩
  exact (c2_merge_nonoverlap_sorted "abcdefghij".toList _ (by decide)).1

/-- The first entity of the C3 counterexample: small span, score one. -/
def c3A : Entity := mkEnt "abc".toList "T1".toList 0 3 1 []

/-- The second entity of the C3 counterexample: much larger span, same
score, different category. -/
def c3B : Entity := mkEnt "abcdefghij".toList "T2".toList 0 10 1 []

/-- C3 (counterexample): on a confidence tie between overlapping
different-category entities, the entity covering more characters does NOT
win; the incumbent (earlier in the processing order) does. -/
theorem c3_tie_counterexample :
    mergeEntities "abcdefghij".toList [c3A, c3B] = [c3A] ∧
    c3A.score = c3B.score ∧ c3A.stop - c3A.start < c3B.stop - c3B.start ∧
    c3A.type ≠ c3B.type ∧ ovB c3B c3A := by
  refine ⟨rfl, by decide, by decide, by decide, by decide⟩

/-- C3 (amended): for two overlapping different-category entities, the one
later in the (ascending start, descending score, stable) processing order
wins exactly when its confidence is strictly higher; otherwise the earlier
one wins; the loser is discarded entirely, never clipped. -/
theorem c3_pair_resolution_amended (text : List Char) (a b : Entity)
    (hov : ovB b a) (hty : a.type ≠ b.type) (hle : mergeLe a b = true) :
    mergeEntities text [a, b] = [if a.score < b.score then b else a] := by
  unfold mergeEntities
  have hsort : pySort mergeLe [a, b] = [a, b] := by
    show insertLe mergeLe a (insertLe mergeLe b []) = [a, b]
    show insertLe mergeLe a [b] = [a, b]
    unfold insertLe
    rw [if_pos hle]
  rw [hsort]
  show mergeInsert text b (mergeInsert text a []) = _
  show mergeInsert text b [a] = _
  unfold mergeInsert
  rw [if_pos hov]
  unfold mergeResolve
  by_cases hsc : a.score < b.score
  · rw [if_pos hsc, if_pos hsc]
  · rw [if_neg hsc, if_neg hsc, if_neg (fun he => hty he.symm)]

/-- The higher-scored incumbent of the C3 witness. -/
def c3A2 : Entity := mkEnt "abcde".toList "T1".toList 0 5 2 []

/-- The lower-scored newcomer of the C3 witness. -/
def c3B2 : Entity := mkEnt "bc".toList "T2".toList 1 3 1 []

/-- C3 (witness): the amended pair resolution at concrete entities. -/
theorem c3_pair_resolution_amended_witness :
    mergeEntities "abcdefghij".toList [c3A2, c3B2] = [c3A2] := by
  have h := c3_pair_resolution_amended "abcdefghij".toList c3A2 c3B2
    (by decide) (by decide) (by decide)
  rw [h, if_neg (by decide)]

/-! Lemmas about the chunking loop. -/

theorem chunksCore_succ (offs : List (Nat × Nat)) (text : List Char)
    (f i : Nat) :
    chunksCore offs text (f + 1) i =
      if i < offs.length then
        (pySlice text (offs.getD i (0, 0)).1
            (offs.getD (min (i + maxLength) offs.length - 1) (0, 0)).2,
          (offs.getD i (0, 0)).1) ::
          (if min (i + maxLength) offs.length < offs.length then
            chunksCore offs text f
              (min (i + maxLength) offs.length - chunkOverlap)
          else [])
      else [] := rfl

theorem chunksCore_congr (offs : List (Nat × Nat)) (text : List Char) :
    ∀ (f g i : Nat), offs.length ≤ i + 480 * f → offs.length ≤ i + 480 * g →
      chunksCore offs text f i = chunksCore offs text g i := by
  intro f
  induction f with
  | zero =>
    intro g i hf hg
    have hni : ¬ i < offs.length := by omega
    cases g with
    | zero => rfl
    | succ g =>
      rw [chunksCore_succ, if_neg hni]
      rfl
  | succ f ih =>
    intro g i hf hg
    by_cases hni : i < offs.length
    · cases g with
      | zero => omega
      | succ g =>
        rw [chunksCore_succ, chunksCore_succ, if_pos hni, if_pos hni]
        by_cases hce : min (i + maxLength) offs.length < offs.length
        · rw [if_pos hce, if_pos hce]
          have hmin : min (i + maxLength) offs.length = i + 512 := by
            simp only [maxLength] at hce ⊢
            omega
          rw [hmin]
          have h1 : offs.length ≤ i + 512 - chunkOverlap + 480 * f := by
            simp only [chunkOverlap]
            omega
          have h2 : offs.length ≤ i + 512 - chunkOverlap + 480 * g := by
            simp only [chunkOverlap]
            omega
          rw [ih g (i + 512 - chunkOverlap) h1 h2]
        · rw [if_neg hce, if_neg hce]
    · cases g with
      | zero =>
        rw [chunksCore_succ, if_neg hni]
        rfl
      | succ g =>
        rw [chunksCore_succ, chunksCore_succ, if_neg hni, if_neg hni]

theorem splitTextIntoChunks_eq (offs : List (Nat × Nat)) (text : List Char)
    (f : Nat) (hf : offs.length ≤ 480 * f) :
    splitTextIntoChunks offs text = chunksCore offs text f 0 := by
  unfold splitTextIntoChunks
  exact chunksCore_congr offs text (offs.length + 1) f 0 (by omega) (by omega)

/-- C9 (counterexample): a text with an empty tokenization (the empty text)
produces zero chunks, not one chunk at offset zero. -/
theorem c9_degenerate_counterexample :
    splitTextIntoChunks [] [] = [] ∧
    (splitTextIntoChunks [] []).length ≠ 1 := by
  constructor
  · rfl
  · decide

/-- C9 (amended): for a nonempty, monotone tokenizer offset mapping whose
spans are ordered, start at zero and end at the text length, every chunk text
is the slice of the text starting at its char offset; the chunks cover the
whole text; and a tokenization of at most one window (512 tokens) yields
exactly one chunk, the whole text at offset zero. -/
theorem c9_chunker_amended (offs : List (Nat × Nat)) (text : List Char)
    (hne : offs ≠ [])
    (hm1 : ∀ k l, k ≤ l → l < offs.length →
      (offs.getD k (0, 0)).1 ≤ (offs.getD l (0, 0)).1)
    (hm2 : ∀ k l, k ≤ l → l < offs.length →
      (offs.getD k (0, 0)).2 ≤ (offs.getD l (0, 0)).2)
    (hse : ∀ k, k < offs.length →
      (offs.getD k (0, 0)).1 ≤ (offs.getD k (0, 0)).2)
    (hfirst : (offs.getD 0 (0, 0)).1 = 0)
    (hlast : (offs.getD (offs.length - 1) (0, 0)).2 = text.length) :
    (∀ p ∈ splitTextIntoChunks offs text,
      p.1 = pySlice text p.2 (p.2 + p.1.length)) ∧
    (∀ j, j < text.length → ∃ p ∈ splitTextIntoChunks offs text,
      p.2 ≤ j ∧ j < p.2 + p.1.length) ∧
    (offs.length ≤ 512 → splitTextIntoChunks offs text = [(text, 0)]) := by
  have hn : 0 < offs.length := List.length_pos.mpr hne
  have hchunk : ∀ i, i < offs.length →
      (offs.getD i (0, 0)).1 ≤
        (offs.getD (min (i + maxLength) offs.length - 1) (0, 0)).2 ∧
      (offs.getD (min (i + maxLength) offs.length - 1) (0, 0)).2 ≤
        text.length := by
    intro i hi
    have hlt : min (i + maxLength) offs.length - 1 < offs.length := by
      simp only [maxLength]
      omega
    have hile : i ≤ min (i + maxLength) offs.length - 1 := by
      simp only [maxLength]
      omega
    constructor
    · exact le_trans (hm1 i _ hile hlt) (hse _ hlt)
    · rw [← hlast]
      exact hm2 _ _ (by omega) (by omega)
  have hlen : ∀ i, i < offs.length →
      ((pySlice text (offs.getD i (0, 0)).1
        (offs.getD (min (i + maxLength) offs.length - 1) (0, 0)).2).length) =
        (offs.getD (min (i + maxLength) offs.length - 1) (0, 0)).2 -
          (offs.getD i (0, 0)).1 := by
    intro i hi
    exact pySlice_length text (hchunk i hi).1 (hchunk i hi).2
  refine ⟨?_, ?_, ?_⟩
  · -- every chunk is the slice at its offset
    have main : ∀ (f : Nat), ∀ (i : Nat), offs.length ≤ i + 480 * f →
        ∀ p ∈ chunksCore offs text f i,
          p.1 = pySlice text p.2 (p.2 + p.1.length) := by
      intro f
      induction f with
      | zero =>
        intro i hfu p hp
        simp [chunksCore] at hp
      | succ f ih =>
        intro i hfu p hp
        rw [chunksCore_succ] at hp
        by_cases hni : i < offs.length
        · rw [if_pos hni] at hp
          rcases List.mem_cons.mp hp with rfl | hp
          · simp only
            rw [hlen i hni]
            have h1 := (hchunk i hni).1
            congr 1
            omega
          · by_cases hce : min (i + maxLength) offs.length < offs.length
            · rw [if_pos hce] at hp
              have hmin : min (i + maxLength) offs.length = i + 512 := by
                simp only [maxLength] at hce ⊢
                omega
              rw [hmin] at hp
              exact ih (i + 512 - chunkOverlap)
                (by simp only [chunkOverlap]; omega) p hp
            · rw [if_neg hce] at hp
              simp at hp
        · rw [if_neg hni] at hp
          simp at hp
    intro p hp
    rw [splitTextIntoChunks_eq offs text (offs.length + 1) (by omega)] at hp
    exact main (offs.length + 1) 0 (by omega) p hp
  · -- coverage
    have main : ∀ (f : Nat), ∀ (i : Nat), i < offs.length →
        offs.length ≤ i + 480 * f →
        ∀ j, (offs.getD i (0, 0)).1 ≤ j → j < text.length →
          ∃ p ∈ chunksCore offs text f i, p.2 ≤ j ∧ j < p.2 + p.1.length := by
      intro f
      induction f with
      | zero =>
        intro i hi hfu
        omega
      | succ f ih =>
        intro i hi hfu j hj hjl
        rw [chunksCore_succ, if_pos hi]
        by_cases hce : min (i + maxLength) offs.length < offs.length
        · have hmin : min (i + maxLength) offs.length = i + 512 := by
            simp only [maxLength] at hce ⊢
            omega
          by_cases hjin : j < (offs.getD (min (i + maxLength) offs.length - 1)
              (0, 0)).2
          · refine ⟨_, List.mem_cons_self _ _, ?_, ?_⟩
            · exact hj
            · simp only
              rw [hlen i hi]
              have h1 := (hchunk i hi).1
              omega
          · have hnext : (offs.getD (i + 512 - chunkOverlap) (0, 0)).1 ≤ j := by
              have hstep : (offs.getD (i + 512 - chunkOverlap) (0, 0)).1 ≤
                  (offs.getD (min (i + maxLength) offs.length - 1) (0, 0)).1 := by
                apply hm1
                · simp only [chunkOverlap]
                  omega
                · simp only [maxLength]
                  omega
              have hs2 := hse (min (i + maxLength) offs.length - 1) (by
                simp only [maxLength]
                omega)
              omega
            have hrec := ih (i + 512 - chunkOverlap)
              (by simp only [chunkOverlap] at *; omega)
              (by simp only [chunkOverlap]; omega) j hnext hjl
            rw [hmin]
            obtain ⟨p, hp, hp2⟩ := hrec
            refine ⟨p, ?_, hp2⟩
            rw [if_pos (by rw [← hmin] at *; exact hce)]
            exact List.mem_cons.mpr (.inr hp)
        · -- final chunk reaches the end of the text
          have hminn : min (i + maxLength) offs.length = offs.length := by
            simp only [maxLength] at hce ⊢
            omega
          refine ⟨_, List.mem_cons_self _ _, hj, ?_⟩
          simp only
          rw [hlen i hi]
          have h1 := (hchunk i hi).1
          have hend : (offs.getD (min (i + maxLength) offs.length - 1)
              (0, 0)).2 = text.length := by
            rw [hminn, hlast]
          omega
    intro j hjl
    rw [splitTextIntoChunks_eq offs text (offs.length + 1) (by omega)]
    have := main (offs.length + 1) 0 hn (by omega) j
      (by rw [hfirst]; exact Nat.zero_le j) hjl
    exact this
  · -- single window
    intro h512
    rw [splitTextIntoChunks_eq offs text (offs.length + 1) (by omega)]
    rw [chunksCore_succ, if_pos hn]
    have hminn : min (0 + maxLength) offs.length = offs.length := by
      simp only [maxLength]
      omega
    rw [if_neg (by rw [hminn]; omega), hminn, hfirst, hlast, pySlice_full]

/-- C9 (witness): the amended chunker statement at a concrete two-token
text. -/
theorem c9_chunker_amended_witness :
    splitTextIntoChunks [(0, 2), (2, 5)] "hello".toList =
      [("hello".toList, 0)] := by
  exact (c9_chunker_amended [(0, 2), (2, 5)] "hello".toList (by decide)
    (by intro k l hkl hll; have h2 : l < 2 := hll
        interval_cases l <;> interval_cases k <;> decide)
    (by intro k l hkl hll; have h2 : l < 2 := hll
        interval_cases l <;> interval_cases k <;> decide)
    (by decide)
    (by decide) (by decide)).2.2 (by decide)

/-! Restore: validation and substitution order. -/

theorem find_first {α : Type} {p : α → Bool} :
    ∀ (l : List α), (∃ x ∈ l, p x = true) →
      ∃ pre x post, l = pre ++ x :: post ∧ (∀ q ∈ pre, p q = false) ∧
        p x = true ∧ l.find? p = some x := by
  intro l
  induction l with
  | nil =>
    rintro ⟨x, hx, _⟩
    cases hx
  | cons a as ih =>
    intro h
    by_cases ha : p a = true
    · exact ⟨[], a, as, rfl, by simp, ha, by rw [List.find?_cons_of_pos _ ha]⟩
    · have ha' : p a = false := by simpa using ha
      obtain ⟨x, hx, hpx⟩ := h
      rcases List.mem_cons.mp hx with heqa | hx
      · rw [heqa] at hpx
        rw [hpx] at ha'
        cases ha'
      · obtain ⟨pre, x', post, heq, hpre, hpx', hfind⟩ := ih ⟨x, hx, hpx⟩
        refine ⟨a :: pre, x', post, by rw [List.cons_append, heq], ?_, hpx', ?_⟩
        · intro q hq
          rcases List.mem_cons.mp hq with heqq | hq
          · rw [heqq]
            exact ha'
          · exact hpre q hq
        · rw [List.find?_cons_of_neg _ (by simp [ha']), hfind]

theorem lenGe_trans : ∀ x y z : TokenMapping,
    lenGe x y = true → lenGe y z = true → lenGe x z = true := by
  intro x y z h1 h2
  unfold lenGe at *
  simp at *
  omega

theorem lenGe_total : ∀ x y : TokenMapping,
    lenGe x y = true ∨ lenGe y x = true := by
  intro x y
  unfold lenGe
  simp
  omega

/-- A mapping whose stored value holds a backslash followed by an ASCII
letter with no template meaning, as a Windows path detected as PII would. -/
def c4bs : TokenMapping :=
  { token := "<PII_X_1>".toList, value := ['C', ':', bslash, 'U']
    type := "X".toList, start := 0, stop := 4 }

/-- A mapping whose stored value is a backslash followed by the letter n. -/
def c4nl : TokenMapping :=
  { token := "<PII_X_1>".toList, value := [bslash, 'n']
    type := "X".toList, start := 0, stop := 2 }

/-- C4 (counterexample): the substitution clause fails as stated. With the
token present in the redacted text, a stored value containing a backslash is
not inserted literally: a backslash before the letter U makes re.sub raise,
aborting the whole restore, and a backslash before the letter n is silently
converted into the newline character, which differs from the stored value. -/
theorem c4_literal_replacement_counterexample :
    isSubstr c4bs.token "x <PII_X_1>".toList = true ∧
    restoreText "x <PII_X_1>".toList [c4bs] = .error RestoreErr.reError ∧
    restoreText "x <PII_X_1>".toList [c4nl] =
      .ok ['x', ' ', Char.ofNat 10] ∧
    ['x', ' ', Char.ofNat 10] ≠ 'x' :: ' ' :: c4nl.value := by
  refine ⟨by decide, rfl, rfl, by decide⟩

/-- C4 (amended): restore_text validates that every token occurs literally in
the redacted text, aborting with the ValueError naming the first missing
token in mapping-list order and performing no substitution; otherwise it runs
the substitution loop over the mappings in longest-token-string-first order
(a permutation of the mappings, pairwise descending in token length), in
which each mapping's stored value is escape-processed by re.sub's template
rules before replacing every literal occurrence of the token: the inserted
text is the stored value itself exactly when the value is backslash-free,
while a malformed template makes re.sub raise and aborts the restore. -/
theorem c4_restore_validation (rt : List Char) (ms : List TokenMapping) :
    ((∃ mp ∈ ms, isSubstr mp.token rt = false) →
      ∃ pre mp post, ms = pre ++ mp :: post ∧
        (∀ q ∈ pre, isSubstr q.token rt = true) ∧
        isSubstr mp.token rt = false ∧
        restoreText rt ms = .error (.valueError (errMsg mp.token))) ∧
    ((∀ mp ∈ ms, isSubstr mp.token rt = true) →
      ∃ os, List.Perm os ms ∧
        os.Pairwise (fun a b => b.token.length ≤ a.token.length) ∧
        restoreText rt ms = subAll os rt ∧
        ((∀ mp ∈ ms, ∀ c ∈ mp.value, c ≠ bslash) →
          restoreText rt ms =
            .ok (os.foldl (fun s mp => replaceAll mp.token mp.value s) rt))) := by
  constructor
  · rintro ⟨mp0, hmem, hmiss⟩
    obtain ⟨pre, x, post, heq, hpre, hpx, hfind⟩ :=
      find_first (p := fun q => !isSubstr q.token rt) ms
        ⟨mp0, hmem, by simp [hmiss]⟩
    refine ⟨pre, x, post, heq, ?_, ?_, ?_⟩
    · intro q hq
      simpa using hpre q hq
    · simpa using hpx
    · unfold restoreText
      rw [hfind]
  · intro hall
    have hnone : ms.find? (fun mp => !isSubstr mp.token rt) = none := by
      rw [List.find?_eq_none]
      intro x hx
      simp [hall x hx]
    have hrun : restoreText rt ms = subAll (pySort lenGe ms) rt := by
      unfold restoreText
      rw [hnone]
    refine ⟨pySort lenGe ms, pySort_perm _ _, ?_, hrun, ?_⟩
    · exact (pySort_pairwise lenGe_trans lenGe_total ms).imp
        (fun h => by simpa [lenGe] using h)
    · intro hbs
      rw [hrun]
      apply subAll_ok
      intro mp hmp
      exact parseTemplate_noBS mp.token mp.value
        (hbs mp ((pySort_perm lenGe ms).mem_iff.mp hmp))

def w4m : TokenMapping :=
  { token := "<PII_X_1>".toList, value := "ab".toList, type := "X".toList
    start := 2, stop := 4 }

/-- C4 (witness): the error branch on a text missing the token, and the ok
branch on a text containing it, at a concrete backslash-free mapping. -/
theorem c4_restore_validation_witness :
    restoreText ['q'] [w4m] = .error (.valueError (errMsg w4m.token)) ∧
    restoreText "q <PII_X_1>".toList [w4m] = .ok "q ab".toList := by
  constructor
  · obtain ⟨pre, mp, post, heq, hpre, hmp, herr⟩ :=
      (c4_restore_validation ['q'] [w4m]).1
        ⟨w4m, List.mem_singleton.mpr rfl, by decide⟩
    rcases pre with _ | ⟨a, pre⟩
    · rw [List.nil_append] at heq
      simp only [List.cons.injEq] at heq
      rw [← heq.1] at herr
      exact herr
    · simp at heq
  · obtain ⟨os, hperm, hpw, hsub, hlit⟩ :=
      (c4_restore_validation "q <PII_X_1>".toList [w4m]).2 (by decide)
    have hok := hlit (by decide)
    rw [List.perm_singleton.mp hperm] at hok
    rw [hok]
    rfl

/-! The frame property of the redacted text. -/

theorem redactParts_flatten (text : List Char) :
    ∀ (es : List Entity) (pos : Nat),
      (redactParts text pos es).flatten = frameSpec text pos es := by
  intro es
  induction es with
  | nil =>
    intro pos
    simp [redactParts, frameSpec]
  | cons e rest ih =>
    intro pos
    simp only [redactParts, frameSpec, List.flatten_cons, ih]
    rw [List.append_assoc]

theorem frameSpec_length (text : List Char) :
    ∀ (es : List Entity) (pos : Nat), pos ≤ text.length →
      (∀ e ∈ es, e.start ≤ e.stop ∧ e.stop ≤ text.length) →
      List.Chain' (fun a b => a.stop ≤ b.start) es →
      (∀ r, es.head? = some r → pos ≤ r.start) →
      (frameSpec text pos es).length +
          (es.map (fun e => e.stop - e.start)).sum =
        (text.length - pos) + (es.map (fun e => e.token.length)).sum := by
  intro es
  induction es with
  | nil =>
    intro pos hpos _ _ _
    simp [frameSpec]
  | cons e rest ih =>
    intro pos hpos hb hchain hhead
    have hbe := hb e (List.mem_cons_self e rest)
    have hstart : e.start ≤ text.length := le_trans hbe.1 hbe.2
    have hheadr : ∀ r, rest.head? = some r → e.stop ≤ r.start := by
      intro r hr
      cases rest with
      | nil => cases hr
      | cons r0 rest =>
        have : r0 = r := by simpa using hr
        rw [← this]
        exact (List.chain'_cons.mp hchain).1
    have hrest := ih e.stop hbe.2 (fun x hx => hb x (List.mem_cons_of_mem e hx))
      (List.Chain'.tail hchain) hheadr
    simp only [frameSpec, List.map_cons, List.sum_cons, List.length_append]
    have hpe : pos ≤ e.start := hhead e rfl
    rw [pySlice_length text hpe hstart]
    omega

/-- C10: frame property: for a sorted, non-overlapping final entity list with
in-bounds spans, the redacted text is exactly the original text's characters
outside the entity spans, unchanged and in order, with each span [start, stop)
replaced in place by that entity's token, as expressed by the frame reference
function; in particular its length is the text length minus the spans'
lengths plus the tokens' lengths. -/
theorem c10_frame_property (text : List Char) (es : List Entity)
    (hchain : es.Chain' (fun a b => a.stop ≤ b.start))
    (hb : ∀ e ∈ es, e.start ≤ e.stop ∧ e.stop ≤ text.length) :
    buildRedacted text es = frameSpec text 0 es ∧
    (buildRedacted text es).length +
        (es.map (fun e => e.stop - e.start)).sum =
      text.length + (es.map (fun e => e.token.length)).sum := by
  have heq : buildRedacted text es = frameSpec text 0 es :=
    redactParts_flatten text es 0
  refine ⟨heq, ?_⟩
  rw [heq]
  have := frameSpec_length text es 0 (Nat.zero_le _) hb hchain
    (fun r _ => Nat.zero_le r.start)
  omega

def w10a : Entity :=
  { value := ['b'], type := ['X'], start := 1, stop := 2, score := 1
    token := "<PII_X_1>".toList }

def w10b : Entity :=
  { value := ['e'], type := ['X'], start := 4, stop := 5, score := 1
    token := "<PII_X_2>".toList }

/-- C10 (witness): the frame property at a concrete text and two entities,
with the frame evaluated explicitly. -/
theorem c10_frame_property_witness :
    buildRedacted "abcdef".toList [w10a, w10b] =
      frameSpec "abcdef".toList 0 [w10a, w10b] ∧
    frameSpec "abcdef".toList 0 [w10a, w10b] =
      "a<PII_X_1>cd<PII_X_2>f".toList := by
  refine ⟨(c10_frame_property "abcdef".toList [w10a, w10b]
      (by rw [List.chain'_cons]
          exact ⟨by decide, List.chain'_singleton _⟩)
      (by decide)).1, by decide⟩

end Redactor
